import Mathlib

/-!
# Spring data generator and least-squares fit (`combined_app.cpp`)

A shallow embedding of `generate_data_to_file`, `linearRegression` and the
loader loop of `main`.

The program is embedded twice.

Exact arithmetic (`linearRegression`, `generate_data_to_file`, `loadData`).
* A finite `double` is an exact rational (`ℚ`): rounding of binary64 is not
  represented, all arithmetic is exact.
* A `double` that may be the result of a division by zero is an `Option ℚ`,
  `none` standing for a non-finite value (`NaN`, `±inf`).  Every operation
  applied to a non-finite operand in `linearRegression` yields a non-finite
  result again, so `none` propagates.
* `std::stod` converts decimal text to the exact decimal; hexadecimal, `inf` and
  `nan` texts have no value there, and no text is out of range.

Binary64 (`linearRegression64`, `generate_data_to_file64`, `loadData64`).
* A `double` is an `F64`: sign, significand and exponent of a finite number, an
  infinity, or a NaN.  Every operation is rounded to nearest, ties to even, with
  gradual underflow and overflow to infinity; there is no fused multiply-add and
  no extended precision, and `pow(v, 2)` is the rounded product `v * v`.
* `std::stod` follows `strtod` in the "C" locale and throws `std::out_of_range`
  when `strtod` reports `ERANGE`.

In both, `int n = x.size()` is taken as the length itself (vectors shorter than
`2^31` elements), and the loop counters are unbounded integers.
-/

namespace CombinedApp

/-! ## Arithmetic on possibly non-finite doubles -/

/-- Division of finite doubles: IEEE gives `NaN` or `±inf` for a zero divisor. -/
def ddiv (a b : ℚ) : Option ℚ :=
  if b = 0 then none else some (a / b)

/-- Lift of a binary operation on finite values; non-finite operands propagate. -/
def lift2 (f : ℚ → ℚ → ℚ) (a b : Option ℚ) : Option ℚ :=
  match a, b with
  | some p, some q => some (f p q)
  | _, _ => none

/-- Addition of doubles. -/
def dadd (a b : Option ℚ) : Option ℚ := lift2 (fun p q => p + q) a b

/-- Subtraction of doubles. -/
def dsub (a b : Option ℚ) : Option ℚ := lift2 (fun p q => p - q) a b

/-- Multiplication of doubles. -/
def dmul (a b : Option ℚ) : Option ℚ := lift2 (fun p q => p * q) a b

/-- The call `pow(v, 2)`. -/
def dpow2 (a : Option ℚ) : Option ℚ := a.map (fun p => p ^ 2)

/-! ## `linearRegression` -/

/-- The record `RegressionResult { double slope, intercept, r_squared; }`. -/
structure RegressionResult where
  slope : Option ℚ
  intercept : Option ℚ
  r_squared : Option ℚ
  deriving DecidableEq

/-- The call `std::accumulate(first, last, init)`: a left fold with `+`. -/
def accumulate (xs : List ℚ) (init : ℚ) : ℚ :=
  xs.foldl (fun acc v => acc + v) init

/-- The call `std::inner_product(first1, last1, first2, init)`: both ranges are
walked together, `init = init + a * b` at each step.  The walk ends with the
first range; the source reads past the end of a shorter second range
(undefined behaviour), where this definition stops. -/
def inner_product : List ℚ → List ℚ → ℚ → ℚ
  | a :: as, b :: bs, init => inner_product as bs (init + a * b)
  | _, _, init => init

/-- The body of the `for` loop on the pair `(ss_res, ss_tot)`, for the values
`u = x[i]` and `v = y[i]`:
`ss_res += pow(v - (intercept + slope * u), 2); ss_tot += pow(v - mean_y, 2);`. -/
def ssUpdate (slope intercept : Option ℚ) (mean_y : ℚ) (st : Option ℚ × ℚ) (u v : ℚ) :
    Option ℚ × ℚ :=
  (dadd st.1 (dpow2 (dsub (some v) (dadd intercept (dmul slope (some u))))),
   st.2 + (v - mean_y) ^ 2)

/-- One iteration of the `for (int i = 0; i < n; ++i)` loop at index `i`.  Reads of
`x[i]`, `y[i]` past the end (undefined in the source) read `0`. -/
def ssStep (x y : List ℚ) (slope intercept : Option ℚ) (mean_y : ℚ)
    (st : Option ℚ × ℚ) (i : Nat) : Option ℚ × ℚ :=
  ssUpdate slope intercept mean_y st (x.getD i 0) (y.getD i 0)

/-- The function `linearRegression(x, y)`. -/
def linearRegression (x y : List ℚ) : RegressionResult :=
  let n := x.length
  if n = 0 then ⟨some 0, some 0, some 0⟩
  else
    let sum_x := accumulate x 0
    let sum_y := accumulate y 0
    let sum_xy := inner_product x y 0
    let sum_x_sq := inner_product x x 0
    let slope := ddiv ((n : ℚ) * sum_xy - sum_x * sum_y) ((n : ℚ) * sum_x_sq - sum_x * sum_x)
    let mean_x := sum_x / (n : ℚ)
    let mean_y := sum_y / (n : ℚ)
    let intercept := dsub (some mean_y) (dmul slope (some mean_x))
    let ss := (List.range n).foldl (ssStep x y slope intercept mean_y) (some 0, 0)
    let ss_res := ss.1
    let ss_tot := ss.2
    let r_squared :=
      if ss_tot > 0 then dsub (some 1) (ss_res.bind (fun r => ddiv r ss_tot)) else some 1
    ⟨slope, intercept, r_squared⟩

/-- The denominator `n * sum_x_sq - sum_x * sum_x` of the slope in
`linearRegression`. -/
def slopeDenominator (x : List ℚ) : ℚ :=
  (x.length : ℚ) * inner_product x x 0 - accumulate x 0 * accumulate x 0

/-- The numerator `n * sum_xy - sum_x * sum_y` of the slope in `linearRegression`. -/
def slopeNumerator (x y : List ℚ) : ℚ :=
  (x.length : ℚ) * inner_product x y 0 - accumulate x 0 * accumulate y 0

/-! ## The closed form of the specification -/

/-- Sum of squared residuals `Σ (y - (c + s * x))²` of the line with intercept `c`
and slope `s`. -/
def ssRes (x y : List ℚ) (c s : ℚ) : ℚ :=
  (List.zipWith (fun u v => (v - (c + s * u)) ^ 2) x y).sum

/-- Total sum of squares `Σ (y - m)²` about the value `m`. -/
def ssTot (y : List ℚ) (m : ℚ) : ℚ :=
  (y.map (fun v => (v - m) ^ 2)).sum

/-- The sum `Sxy = Σ x·y`. -/
def sumProd (x y : List ℚ) : ℚ :=
  (List.zipWith (fun u v => u * v) x y).sum

/-- The mean of a list of values. -/
def mean (v : List ℚ) : ℚ := v.sum / (v.length : ℚ)

/-- The ordinary-least-squares closed form as the specification words it:
`slope = (n·Sxy − Sx·Sy) / (n·Sxx − Sx·Sx)`, `intercept = mean(y) − slope·mean(x)`,
`r_squared = 1 − ss_res/ss_tot` if `ss_tot > 0`, else `1`.  A zero denominator
makes the slope, and what is computed from it, non-finite. -/
def olsClosedForm (x y : List ℚ) : RegressionResult :=
  let n : ℚ := (x.length : ℚ)
  match ddiv (n * sumProd x y - x.sum * y.sum) (n * sumProd x x - x.sum * x.sum) with
  | none =>
      ⟨none, none, if ssTot y (mean y) > 0 then none else some 1⟩
  | some slope =>
      let intercept := mean y - slope * mean x
      ⟨some slope, some intercept,
        if ssTot y (mean y) > 0 then
          some (1 - ssRes x y intercept slope / ssTot y (mean y))
        else some 1⟩

/-! ## `generate_data_to_file`

The draws `d(gen)` of the normal distribution are a parameter: `noise i` is the
value drawn in iteration `i`.  The literal `0.025` is the exact decimal. -/

/-- The pair `(x, y_noisy)` computed in iteration `i` of the generator loop:
`x = i * 0.025`, `y_perfect = k_true * x`, `y_noisy = y_perfect + d(gen)`. -/
def sample (k_true : ℚ) (noise : Nat → ℚ) (i : Nat) : ℚ × ℚ :=
  let x : ℚ := (i : ℚ) * 0.025
  let y_perfect := k_true * x
  let y_noisy := y_perfect + noise i
  (x, y_noisy)

/-- The samples of `for (int i = 1; i <= num_points; ++i)`, in loop order. -/
def generateSamples (k_true : ℚ) (num_points : Int) (noise : Nat → ℚ) : List (ℚ × ℚ) :=
  (List.range num_points.toNat).map (fun j => sample k_true noise (j + 1))

/-- Nearest integer to `q`, ties to even: the rounding `printf` applies to the
exact value of a double. -/
def roundHalfEven (q : ℚ) : Int :=
  let f := ⌊q⌋
  let r := q - (f : ℚ)
  if r < 1 / 2 then f
  else if 1 / 2 < r then f + 1
  else if f % 2 = 0 then f else f + 1

/-- The four decimal digits of `d < 10000`. -/
def frac4 (d : Nat) : List Char :=
  [Nat.digitChar (d / 1000 % 10), Nat.digitChar (d / 100 % 10),
   Nat.digitChar (d / 10 % 10), Nat.digitChar (d % 10)]

/-- The magnitude of `v` in units of `10⁻⁴`, rounded. -/
def scaled4 (v : ℚ) : Nat := (roundHalfEven (|v| * 10000)).toNat

/-- The characters of `std::fixed << std::setprecision(4) << v`: a `-` for a
negative value, the integer part in decimal, `.`, four decimals. -/
def fixed4 (v : ℚ) : List Char :=
  (if v < 0 then ['-'] else []) ++ Nat.toDigits 10 (scaled4 v / 10000) ++ ['.']
    ++ frac4 (scaled4 v % 10000)

/-- The header line written first. -/
def header : List Char := "displacement_m,force_N\n".toList

/-- The characters of `x << "," << y_noisy << "\n"` under `fixed`, `setprecision(4)`. -/
def formatLine (p : ℚ × ℚ) : List Char :=
  fixed4 p.1 ++ [','] ++ fixed4 p.2 ++ ['\n']

/-- The text `generate_data_to_file(filename, k_true, num_points, noise_level)`
writes to the file: the header, then one line per sample appended in loop order. -/
def generate_data_to_file (k_true : ℚ) (num_points : Int) (noise : Nat → ℚ) : List Char :=
  (generateSamples k_true num_points noise).foldl (fun file p => file ++ formatLine p) header

/-! ## Input streams, `std::getline`, `std::stod` -/

/-- An input stream: the characters not yet extracted and the state bits. -/
structure IStream where
  buf : List Char
  eofbit : Bool
  failbit : Bool
  deriving DecidableEq

/-- The test `good()`: no state bit is set. -/
def IStream.good (s : IStream) : Bool := !s.eofbit && !s.failbit

/-- The call `std::getline(in, str, delim)`, returning the stream and `str`.
When the stream is not good the sentry fails: `failbit` is set and `str` is left
as it was.  Otherwise `str` is erased and characters are extracted up to the
delimiter (extracted and dropped) or the end of input (`eofbit`); `failbit` is set
when nothing at all was extracted. -/
def getline (s : IStream) (str : List Char) (delim : Char) : IStream × List Char :=
  if s.good then
    match s.buf.span (fun c => c != delim) with
    | (w, []) => (⟨[], true, w.isEmpty⟩, w)
    | (w, _ :: rest) => (⟨rest, false, false⟩, w)
  else (⟨s.buf, s.eofbit, true⟩, str)

/-- Outcomes of the loader other than a dataset. -/
inductive LoadError where
  /-- The exception `std::invalid_argument` thrown by `std::stod`: no conversion
  could be performed. -/
  | invalid_argument
  /-- The text is a hexadecimal, `INF` or `NAN` literal, which `strtod` converts
  but which has no value in this development. -/
  | unsupported
  /-- The iteration bound of `readRows` was reached. -/
  | out_of_fuel
  deriving DecidableEq

/-- The test `isspace` of the "C" locale. -/
def isSpace (c : Char) : Bool :=
  c = ' ' || c = '\t' || c = '\n' || c = '\x0b' || c = '\x0c' || c = '\r'

/-- Hexadecimal digit test. -/
def isHexDigit (c : Char) : Bool :=
  c.isDigit || ('a' ≤ c && c ≤ 'f') || ('A' ≤ c && c ≤ 'F')

/-- Whether the text starts a hexadecimal literal: `0x` or `0X` followed by a
hexadecimal digit, or by `.` and a hexadecimal digit. -/
def isHexPrefix : List Char → Bool
  | '0' :: c :: r =>
    (c = 'x' || c = 'X') &&
      (match r with
       | d :: r1 =>
         isHexDigit d ||
           (d = '.' && (match r1 with
             | e :: _ => isHexDigit e
             | [] => false))
       | [] => false)
  | _ => false

/-- Whether the text starts with `inf` or `nan`, in any letter case. -/
def isInfNan : List Char → Bool
  | a :: b :: c :: _ =>
    ((a = 'i' || a = 'I') && (b = 'n' || b = 'N') && (c = 'f' || c = 'F')) ||
    ((a = 'n' || a = 'N') && (b = 'a' || b = 'A') && (c = 'n' || c = 'N'))
  | _ => false

/-- Whether the text after the sign starts a hexadecimal, `INF` or `NAN` literal. -/
def isSpecial (s : List Char) : Bool := isHexPrefix s || isInfNan s

/-- The number written by a string of decimal digits. -/
def digitsValue (ds : List Char) : Nat :=
  ds.foldl (fun acc c => acc * 10 + (c.toNat - '0'.toNat)) 0

/-- The decimal exponent `e[+-]ddd` at the head of the text, `0` when there is
none (an `e` not followed by digits is not part of the number). -/
def exponent : List Char → Int
  | c :: r =>
    if c = 'e' ∨ c = 'E' then
      match r with
      | '-' :: d =>
        if (d.takeWhile Char.isDigit).isEmpty then 0
        else - (digitsValue (d.takeWhile Char.isDigit) : Int)
      | '+' :: d => (digitsValue (d.takeWhile Char.isDigit) : Int)
      | d => (digitsValue (d.takeWhile Char.isDigit) : Int)
    else 0
  | [] => 0

/-- The call `std::stod(str)` on decimal text: leading white space is skipped, then
an optional sign, digits with an optional `.`, and an optional exponent are
converted; what follows is ignored.  The value is the exact decimal (no rounding
to binary64, no range error). -/
def stod (str : List Char) : Except LoadError ℚ :=
  let s1 := str.dropWhile isSpace
  let signed : Bool × List Char :=
    match s1 with
    | '-' :: r => (true, r)
    | '+' :: r => (false, r)
    | r => (false, r)
  let s2 := signed.2
  if isSpecial s2 then .error .unsupported
  else
    let ip := s2.takeWhile Char.isDigit
    let s3 := s2.dropWhile Char.isDigit
    let frac : List Char × List Char :=
      match s3 with
      | '.' :: r => (r.takeWhile Char.isDigit, r.dropWhile Char.isDigit)
      | r => ([], r)
    let fp := frac.1
    if ip.isEmpty && fp.isEmpty then .error .invalid_argument
    else
      let mant : ℚ := (digitsValue (ip ++ fp) : ℚ) / (10 : ℚ) ^ fp.length
      .ok ((if signed.1 then -mant else mant) * (10 : ℚ) ^ exponent frac.2)

/-! ## The loader of `main` -/

/-- The body of the loader loop for one `line`:
`std::stringstream ss(line); std::getline(ss, word, ','); x = std::stod(word);
std::getline(ss, word, ','); y = std::stod(word);`.
Returns the two numbers and the final content of `word`; an exception thrown by
`std::stod` ends the run. -/
def parseRow (line word : List Char) : Except LoadError (ℚ × ℚ × List Char) :=
  let ss : IStream := ⟨line, false, false⟩
  let g1 := getline ss word ','
  match stod g1.2 with
  | .error e => .error e
  | .ok xv =>
    let g2 := getline g1.1 g1.2 ','
    match stod g2.2 with
    | .error e => .error e
    | .ok yv => .ok (xv, yv, g2.2)

/-- The loop `while (std::getline(file, line)) { ... }` of `main`, with the
variables `line`, `word`, `x_data`, `y_data` as state.  `fuel` bounds the number
of iterations. -/
def readRows : Nat → IStream → List Char → List Char → List ℚ → List ℚ →
    Except LoadError (List ℚ × List ℚ)
  | 0, _, _, _, _, _ => .error .out_of_fuel
  | fuel + 1, file, line, word, x_data, y_data =>
    let r := getline file line '\n'
    if r.1.failbit then .ok (x_data, y_data)
    else
      match parseRow r.2 word with
      | .error e => .error e
      | .ok (xv, yv, word1) =>
        readRows fuel r.1 r.2 word1 (x_data ++ [xv]) (y_data ++ [yv])

/-- The loader of `main` on the text of an opened file: the first line is read
and dropped, then the rows are read. -/
def loadData (text : List Char) : Except LoadError (List ℚ × List ℚ) :=
  let file : IStream := ⟨text, false, false⟩
  let hdr := getline file [] '\n'
  readRows (text.length + 1) hdr.1 hdr.2 [] [] []

/-! ## Format of a written field -/

/-- Whether `f` is a decimal numeral with exactly four digits after the `.`: an
optional `-`, at least one digit, `.`, four digits, nothing else. -/
def isFixed4 (f : List Char) : Bool :=
  let body := match f with
    | '-' :: r => r
    | r => r
  let ip := body.takeWhile Char.isDigit
  !ip.isEmpty &&
    match body.dropWhile Char.isDigit with
    | '.' :: fp => fp.length == 4 && fp.all Char.isDigit
    | _ => false

/-- The number written by the numeral `fixed4 v`: `v` rounded to four decimals. -/
def round4 (v : ℚ) : ℚ :=
  if v < 0 then -((scaled4 v : ℚ) / 10000) else (scaled4 v : ℚ) / 10000

/-! ## Lines of a text -/

/-- The lines of a text: the pieces between newlines, a last piece that no newline
ends counting as a line when it is not empty. -/
def linesOf : List Char → List (List Char)
  | [] => []
  | c :: cs =>
    if c = '\n' then [] :: linesOf cs
    else
      match linesOf cs with
      | [] => [[c]]
      | l :: ls => (c :: l) :: ls

/-! ## Binary64 arithmetic -/

/-- A binary64 value: a finite number `(-1)^neg * m * 2^e`, an infinity, or a NaN.
Finite values are kept in the form of the format: `m < 2^53`, `-1074 ≤ e ≤ 971`,
and `2^52 ≤ m` unless `e = -1074` (subnormal numbers and the zeros). -/
inductive F64 where
  | fin (neg : Bool) (m : Nat) (e : Int)
  | inf (neg : Bool)
  | nan
  deriving DecidableEq

/-- Number of binary digits of `n`, with `fuel` bounding the recursion. -/
def bitLenAux : Nat → Nat → Nat
  | 0, _ => 0
  | fuel + 1, n => if n = 0 then 0 else bitLenAux fuel (n / 2) + 1

/-- Number of binary digits of `n`. -/
def bitLen (n : Nat) : Nat := bitLenAux n n

/-- The binary64 value nearest to `num / den * 2^ex` (`den > 0`), with the sign
`neg`: round to nearest, ties to even, gradual underflow, overflow to infinity. -/
def roundF64 (neg : Bool) (num den : Nat) (ex : Int) : F64 :=
  if num = 0 then .fin neg 0 (-1074)
  else
    let k : Int := (bitLen num : Int) - (bitLen den : Int)
    let lg : Int := if den * 2 ^ k.toNat ≤ num * 2 ^ (-k).toNat then k else k - 1
    let e : Int := max (lg + ex - 52) (-1074)
    let sh : Int := ex - e
    let n1 : Nat := num * 2 ^ sh.toNat
    let d1 : Nat := den * 2 ^ (-sh).toNat
    let q : Nat := n1 / d1
    let r : Nat := n1 % d1
    let q1 : Nat :=
      if 2 * r < d1 then q
      else if d1 < 2 * r then q + 1
      else if q % 2 = 0 then q else q + 1
    let m : Nat := if q1 = 2 ^ 53 then 2 ^ 52 else q1
    let e1 : Int := if q1 = 2 ^ 53 then e + 1 else e
    if e1 > 971 then .inf neg else .fin neg m e1

namespace F64

/-- The value `+0.0`. -/
def zero : F64 := .fin false 0 (-1074)

/-- The value `1.0`. -/
def one : F64 := .fin false (2 ^ 52) (-52)

/-- Conversion of a non-negative `int` to `double`. -/
def ofNat (n : Nat) : F64 := roundF64 false n 1 0

/-- Negation: the sign bit is flipped. -/
def neg : F64 → F64
  | fin s m e => fin (!s) m e
  | inf s => inf (!s)
  | nan => nan

/-- The integer `(-1)^s * m * 2^(e - e0)` for `e0 ≤ e`. -/
def scaledInt (s : Bool) (m : Nat) (e e0 : Int) : Int :=
  if s then -((m * 2 ^ (e - e0).toNat : Nat) : Int) else ((m * 2 ^ (e - e0).toNat : Nat) : Int)

/-- Addition `a + b`.  A sum that is exactly zero is `+0`, except for `-0 + -0`;
adding a zero to a non-zero number returns that number. -/
def add : F64 → F64 → F64
  | nan, _ => nan
  | _, nan => nan
  | inf s, inf t => if s = t then inf s else nan
  | inf s, fin _ _ _ => inf s
  | fin _ _ _, inf t => inf t
  | fin s ma ea, fin t mb eb =>
    if ma = 0 then (if mb = 0 then fin (s && t) 0 (-1074) else fin t mb eb)
    else if mb = 0 then fin s ma ea
    else
      let e0 := min ea eb
      let sum : Int := scaledInt s ma ea e0 + scaledInt t mb eb e0
      if sum = 0 then fin false 0 (-1074)
      else roundF64 (decide (sum < 0)) sum.natAbs 1 e0

/-- Subtraction `a - b`. -/
def sub (a b : F64) : F64 := add a (neg b)

/-- Multiplication `a * b`. -/
def mul : F64 → F64 → F64
  | nan, _ => nan
  | _, nan => nan
  | inf s, inf t => inf (xor s t)
  | inf s, fin t m _ => if m = 0 then nan else inf (xor s t)
  | fin s m _, inf t => if m = 0 then nan else inf (xor s t)
  | fin s ma ea, fin t mb eb => roundF64 (xor s t) (ma * mb) 1 (ea + eb)

/-- Division `a / b`. -/
def div : F64 → F64 → F64
  | nan, _ => nan
  | _, nan => nan
  | inf _, inf _ => nan
  | inf s, fin t _ _ => inf (xor s t)
  | fin s _ _, inf t => fin (xor s t) 0 (-1074)
  | fin s ma ea, fin t mb eb =>
    if mb = 0 then (if ma = 0 then nan else inf (xor s t))
    else roundF64 (xor s t) ma mb (ea - eb)

/-- The comparison `a < b` (false when an operand is a NaN; the two zeros are
equal). -/
def lt : F64 → F64 → Bool
  | nan, _ => false
  | _, nan => false
  | inf s, inf t => s && !t
  | inf s, fin _ _ _ => s
  | fin _ _ _, inf t => !t
  | fin s ma ea, fin t mb eb =>
    if ma = 0 then (if mb = 0 then false else !t)
    else if mb = 0 then s
    else
      let e0 := min ea eb
      decide (scaledInt s ma ea e0 < scaledInt t mb eb e0)

/-- The exact value of a finite binary64 number (`0` for an infinity or a NaN). -/
def toRat : F64 → ℚ
  | fin s m e => (if s then -1 else 1) * (m : ℚ) * (2 : ℚ) ^ e
  | _ => 0

/-- Whether the value is a finite number. -/
def isFinite : F64 → Bool
  | fin _ _ _ => true
  | _ => false

end F64

/-! ## `linearRegression` in binary64

The same function with every operation rounded to binary64 (round to nearest,
ties to even; no fused multiply-add, no extended precision); `pow(v, 2)` is the
rounded product `v * v`. -/

/-- The record `RegressionResult` with binary64 fields. -/
structure RegressionResult64 where
  slope : F64
  intercept : F64
  r_squared : F64
  deriving DecidableEq

/-- The call `std::accumulate(first, last, init)` on doubles. -/
def accumulate64 (xs : List F64) (init : F64) : F64 :=
  xs.foldl (fun acc v => F64.add acc v) init

/-- The call `std::inner_product(first1, last1, first2, init)` on doubles; the walk
ends with the first range, and stops where the source would read past the end of
a shorter second range. -/
def inner_product64 : List F64 → List F64 → F64 → F64
  | a :: as, b :: bs, init => inner_product64 as bs (F64.add init (F64.mul a b))
  | _, _, init => init

/-- The body of the `for` loop on the pair `(ss_res, ss_tot)` for `u = x[i]`,
`v = y[i]`. -/
def ssUpdate64 (slope intercept mean_y : F64) (st : F64 × F64) (u v : F64) : F64 × F64 :=
  let d := F64.sub v (F64.add intercept (F64.mul slope u))
  let t := F64.sub v mean_y
  (F64.add st.1 (F64.mul d d), F64.add st.2 (F64.mul t t))

/-- One iteration of the `for (int i = 0; i < n; ++i)` loop at index `i`; reads past
the end (undefined in the source) read `0`. -/
def ssStep64 (x y : List F64) (slope intercept mean_y : F64) (st : F64 × F64) (i : Nat) :
    F64 × F64 :=
  ssUpdate64 slope intercept mean_y st (x.getD i F64.zero) (y.getD i F64.zero)

/-- The function `linearRegression(x, y)` in binary64. -/
def linearRegression64 (x y : List F64) : RegressionResult64 :=
  let n := x.length
  if n = 0 then ⟨F64.zero, F64.zero, F64.zero⟩
  else
    let nd := F64.ofNat n
    let sum_x := accumulate64 x F64.zero
    let sum_y := accumulate64 y F64.zero
    let sum_xy := inner_product64 x y F64.zero
    let sum_x_sq := inner_product64 x x F64.zero
    let slope := F64.div (F64.sub (F64.mul nd sum_xy) (F64.mul sum_x sum_y))
      (F64.sub (F64.mul nd sum_x_sq) (F64.mul sum_x sum_x))
    let mean_x := F64.div sum_x nd
    let mean_y := F64.div sum_y nd
    let intercept := F64.sub mean_y (F64.mul slope mean_x)
    let ss := (List.range n).foldl (ssStep64 x y slope intercept mean_y) (F64.zero, F64.zero)
    let ss_res := ss.1
    let ss_tot := ss.2
    let r_squared :=
      if F64.lt F64.zero ss_tot then F64.sub F64.one (F64.div ss_res ss_tot) else F64.one
    ⟨slope, intercept, r_squared⟩

/-- The denominator `n * sum_x_sq - sum_x * sum_x` of the slope, in binary64. -/
def slopeDenominator64 (x : List F64) : F64 :=
  F64.sub (F64.mul (F64.ofNat x.length) (inner_product64 x x F64.zero))
    (F64.mul (accumulate64 x F64.zero) (accumulate64 x F64.zero))

/-- The double nearest to the decimal `num / den`. -/
def F64.ofDecimal (num den : Nat) : F64 := roundF64 false num den 0

/-! ## `generate_data_to_file` in binary64 -/

/-- The pair `(x, y_noisy)` of iteration `i` of the generator loop in binary64:
`x = i * 0.025` with the double nearest `0.025`, `y_perfect = k_true * x`,
`y_noisy = y_perfect + d(gen)`. -/
def sample64 (k_true : F64) (noise : Nat → F64) (i : Nat) : F64 × F64 :=
  let x := F64.mul (F64.ofNat i) (F64.ofDecimal 25 1000)
  let y_perfect := F64.mul k_true x
  let y_noisy := F64.add y_perfect (noise i)
  (x, y_noisy)

/-- The samples of `for (int i = 1; i <= num_points; ++i)` in binary64. -/
def generateSamples64 (k_true : F64) (num_points : Int) (noise : Nat → F64) :
    List (F64 × F64) :=
  (List.range num_points.toNat).map (fun j => sample64 k_true noise (j + 1))

/-- The characters of `std::fixed << std::setprecision(4) << v` for a double: a
finite value is a `-` when the sign bit is set, the integer part, `.` and four
decimals of the exact value rounded; an infinity is `inf` or `-inf`; a NaN is
`nan` (a sign some platforms print before it is left out). -/
def fixed4_64 : F64 → List Char
  | .fin s m e =>
    (if s then ['-'] else [])
      ++ Nat.toDigits 10 (scaled4 ((m : ℚ) * (2 : ℚ) ^ e) / 10000) ++ ['.']
      ++ frac4 (scaled4 ((m : ℚ) * (2 : ℚ) ^ e) % 10000)
  | .inf s => (if s then ['-'] else []) ++ ['i', 'n', 'f']
  | .nan => ['n', 'a', 'n']

/-- The characters of `x << "," << y_noisy << "\n"` for doubles. -/
def formatLine64 (p : F64 × F64) : List Char :=
  fixed4_64 p.1 ++ [','] ++ fixed4_64 p.2 ++ ['\n']

/-- The text `generate_data_to_file` writes, computed in binary64. -/
def generate_data_to_file64 (k_true : F64) (num_points : Int) (noise : Nat → F64) :
    List Char :=
  (generateSamples64 k_true num_points noise).foldl (fun file p => file ++ formatLine64 p)
    header

/-! ## The loader in binary64

The same loader with `std::stod` returning the nearest double and throwing
`std::out_of_range` when `strtod` reports a range error. -/

/-- Outcomes of the binary64 loader other than a dataset. -/
inductive LoadError64 where
  /-- The exception `std::invalid_argument` of `std::stod`: no conversion could be
  performed. -/
  | invalid_argument
  /-- The exception `std::out_of_range` of `std::stod`: `strtod` reported `ERANGE`. -/
  | out_of_range
  /-- The iteration bound of `readRows64` was reached. -/
  | out_of_fuel
  deriving DecidableEq

/-- Whether the text starts with `inf`, in any letter case. -/
def isInfPrefix : List Char → Bool
  | a :: b :: c :: _ => (a = 'i' || a = 'I') && (b = 'n' || b = 'N') && (c = 'f' || c = 'F')
  | _ => false

/-- Whether the text starts with `nan`, in any letter case. -/
def isNanPrefix : List Char → Bool
  | a :: b :: c :: _ => (a = 'n' || a = 'N') && (b = 'a' || b = 'A') && (c = 'n' || c = 'N')
  | _ => false

/-- The value of a hexadecimal digit. -/
def hexVal (c : Char) : Nat :=
  if c.isDigit then c.toNat - '0'.toNat
  else if 'a' ≤ c ∧ c ≤ 'f' then c.toNat - 'a'.toNat + 10
  else c.toNat - 'A'.toNat + 10

/-- The number written by a string of hexadecimal digits. -/
def hexValue (ds : List Char) : Nat :=
  ds.foldl (fun acc c => acc * 16 + hexVal c) 0

/-- The binary exponent `p[+-]ddd` at the head of the text, `0` when there is none. -/
def exponentP : List Char → Int
  | c :: r =>
    if c = 'p' ∨ c = 'P' then
      match r with
      | '-' :: d =>
        if (d.takeWhile Char.isDigit).isEmpty then 0
        else - (digitsValue (d.takeWhile Char.isDigit) : Int)
      | '+' :: d => (digitsValue (d.takeWhile Char.isDigit) : Int)
      | d => (digitsValue (d.takeWhile Char.isDigit) : Int)
    else 0
  | [] => 0

/-- Whether the finite double `r` is exactly `num / den * 2^ex`. -/
def isExact (r : F64) (num den : Nat) (ex : Int) : Bool :=
  match r with
  | .fin _ m e => decide (m * den * 2 ^ (e - ex).toNat = num * 2 ^ (ex - e).toNat)
  | _ => false

/-- The result of `std::stod` for the text value `(-1)^neg * num / den * 2^ex`: the
nearest double, or `std::out_of_range` when `strtod` sets `ERANGE`, that is when
the value overflows, or is not zero and rounds inexactly to a subnormal number or
to zero. -/
def stodResult (neg : Bool) (num den : Nat) (ex : Int) : Except LoadError64 F64 :=
  match roundF64 neg num den ex with
  | .fin s m e =>
    if m < 2 ^ 52 ∧ isExact (.fin s m e) num den ex = false then .error .out_of_range
    else .ok (.fin s m e)
  | _ => .error .out_of_range

/-- The sign and the text after it: an optional `-` or `+` is taken off. -/
def splitSign : List Char → Bool × List Char
  | '-' :: r => (true, r)
  | '+' :: r => (false, r)
  | r => (false, r)

/-- The digits after a `.` at the head of the text, and what follows them; no
digits when the text does not start with `.`. -/
def fractionPart (p : Char → Bool) : List Char → List Char × List Char
  | '.' :: r => (r.takeWhile p, r.dropWhile p)
  | r => ([], r)

/-- The call `std::stod(str)` in binary64, following `strtod` in the "C" locale:
white space is skipped, then an optional sign; `inf` and `nan` (any letter case)
give an infinity and a NaN; `0x` followed by hexadecimal digits gives a
hexadecimal number with an optional binary exponent; otherwise decimal digits with
an optional `.` and an optional exponent are converted.  What follows the number
is ignored.  Without a number `std::invalid_argument` is thrown. -/
def stod64 (str : List Char) : Except LoadError64 F64 :=
  let signed := splitSign (str.dropWhile isSpace)
  let s2 := signed.2
  if isInfPrefix s2 then .ok (.inf signed.1)
  else if isNanPrefix s2 then .ok .nan
  else if isHexPrefix s2 then
    let r := s2.drop 2
    let ip := r.takeWhile isHexDigit
    let frac := fractionPart isHexDigit (r.dropWhile isHexDigit)
    stodResult signed.1 (hexValue (ip ++ frac.1)) 1
      (exponentP frac.2 - 4 * (frac.1.length : Int))
  else
    let ip := s2.takeWhile Char.isDigit
    let frac := fractionPart Char.isDigit (s2.dropWhile Char.isDigit)
    if ip.isEmpty && frac.1.isEmpty then .error .invalid_argument
    else
      let d : Int := exponent frac.2 - (frac.1.length : Int)
      stodResult signed.1 (digitsValue (ip ++ frac.1) * 10 ^ d.toNat) (10 ^ (-d).toNat) 0

/-- Whether the text begins, after white space and an optional sign, like a
number: with a decimal digit, with a `.` followed by a decimal digit, or with
`inf` or `nan` in any letter case. -/
def hasNumberPrefix (str : List Char) : Bool :=
  match (splitSign (str.dropWhile isSpace)).2 with
  | c :: d :: r =>
    c.isDigit || (c = '.' && d.isDigit) || isInfPrefix (c :: d :: r) || isNanPrefix (c :: d :: r)
  | [c] => c.isDigit
  | [] => false

/-- The body of the loader loop for one `line`, with `std::stod` in binary64. -/
def parseRow64 (line word : List Char) : Except LoadError64 (F64 × F64 × List Char) :=
  let ss : IStream := ⟨line, false, false⟩
  let g1 := getline ss word ','
  match stod64 g1.2 with
  | .error e => .error e
  | .ok xv =>
    let g2 := getline g1.1 g1.2 ','
    match stod64 g2.2 with
    | .error e => .error e
    | .ok yv => .ok (xv, yv, g2.2)

/-- The loop `while (std::getline(file, line)) { ... }` of `main` in binary64;
`fuel` bounds the number of iterations. -/
def readRows64 : Nat → IStream → List Char → List Char → List F64 → List F64 →
    Except LoadError64 (List F64 × List F64)
  | 0, _, _, _, _, _ => .error .out_of_fuel
  | fuel + 1, file, line, word, x_data, y_data =>
    let r := getline file line '\n'
    if r.1.failbit then .ok (x_data, y_data)
    else
      match parseRow64 r.2 word with
      | .error e => .error e
      | .ok (xv, yv, word1) =>
        readRows64 fuel r.1 r.2 word1 (x_data ++ [xv]) (y_data ++ [yv])

/-- The loader of `main` on the text of an opened file, in binary64. -/
def loadData64 (text : List Char) : Except LoadError64 (List F64 × List F64) :=
  let file : IStream := ⟨text, false, false⟩
  let hdr := getline file [] '\n'
  readRows64 (text.length + 1) hdr.1 hdr.2 [] [] []

/-- Outcomes of the loader can be compared. -/
instance decEqExcept {ε α : Type} [DecidableEq ε] [DecidableEq α] :
    DecidableEq (Except ε α)
  | .ok a, .ok b => if h : a = b then isTrue (by rw [h]) else isFalse (by simpa using h)
  | .error a, .error b => if h : a = b then isTrue (by rw [h]) else isFalse (by simpa using h)
  | .ok _, .error _ => isFalse (by simp)
  | .error _, .ok _ => isFalse (by simp)

/-! ## Folds as sums -/

theorem accumulate_eq (xs : List ℚ) (init : ℚ) : accumulate xs init = init + xs.sum := by
  unfold accumulate
  induction xs generalizing init with
  | nil => simp
  | cons a as ih => simp [List.foldl_cons, ih, add_assoc]

theorem inner_product_eq (x y : List ℚ) (init : ℚ) :
    inner_product x y init = init + sumProd x y := by
  unfold sumProd
  induction x generalizing y init with
  | nil => simp [inner_product]
  | cons a as ih =>
    cases y with
    | nil => simp [inner_product]
    | cons b bs => simp [inner_product, ih, add_assoc]

/-- A loop over the indices `0 .. n-1` reading `x[i]`, `y[i]` is a fold over the
paired elements when both vectors have `n` elements. -/
theorem foldl_range_getD {σ : Type} (F : σ → ℚ → ℚ → σ) (x y : List ℚ) (st : σ)
    (h : x.length = y.length) :
    (List.range x.length).foldl (fun s i => F s (x.getD i 0) (y.getD i 0)) st
      = (List.zip x y).foldl (fun s p => F s p.1 p.2) st := by
  induction x generalizing y st with
  | nil => simp
  | cons a as ih =>
    cases y with
    | nil => simp at h
    | cons b bs =>
      have h' : as.length = bs.length := by simpa using h
      simp only [List.length_cons, List.range_succ_eq_map, List.foldl_cons, List.foldl_map,
        List.zip_cons_cons, List.getD_cons_zero, List.getD_cons_succ]
      exact ih bs _ h'

/-- The loop on `(ss_res, ss_tot)` as a fold over the paired samples. -/
theorem ssLoop_eq_zip (x y : List ℚ) (slope intercept : Option ℚ) (mean_y : ℚ)
    (st : Option ℚ × ℚ) (h : x.length = y.length) :
    (List.range x.length).foldl (ssStep x y slope intercept mean_y) st
      = (List.zip x y).foldl (fun s p => ssUpdate slope intercept mean_y s p.1 p.2) st :=
  foldl_range_getD (ssUpdate slope intercept mean_y) x y st h

/-- With a finite slope and intercept the loop computes both sums of squares. -/
theorem ssLoop_finite (x y : List ℚ) (s c mean_y a b : ℚ) (h : x.length = y.length) :
    (List.zip x y).foldl (fun st p => ssUpdate (some s) (some c) mean_y st p.1 p.2) (some a, b)
      = (some (a + ssRes x y c s), b + ssTot y mean_y) := by
  induction x generalizing y a b with
  | nil =>
    cases y with
    | nil => simp [ssRes, ssTot]
    | cons b bs => simp at h
  | cons u us ih =>
    cases y with
    | nil => simp at h
    | cons v vs =>
      have h' : us.length = vs.length := by simpa using h
      have hstep : ssUpdate (some s) (some c) mean_y (some a, b) u v
          = (some (a + (v - (c + s * u)) ^ 2), b + (v - mean_y) ^ 2) := rfl
      simp only [List.zip_cons_cons, List.foldl_cons, hstep]
      rw [ih vs _ _ h']
      simp [ssRes, ssTot, add_assoc]

/-- The total sum of squares computed by the loop does not depend on the slope. -/
theorem ssLoop_snd (x y : List ℚ) (slope intercept : Option ℚ) (mean_y b : ℚ) (r : Option ℚ)
    (h : x.length = y.length) :
    ((List.zip x y).foldl (fun st p => ssUpdate slope intercept mean_y st p.1 p.2) (r, b)).2
      = b + ssTot y mean_y := by
  induction x generalizing y r b with
  | nil =>
    cases y with
    | nil => simp [ssTot]
    | cons b bs => simp at h
  | cons u us ih =>
    cases y with
    | nil => simp at h
    | cons v vs =>
      have h' : us.length = vs.length := by simpa using h
      simp only [List.zip_cons_cons, List.foldl_cons]
      have hstep : ssUpdate slope intercept mean_y (r, b) u v
          = ((ssUpdate slope intercept mean_y (r, b) u v).1, b + (v - mean_y) ^ 2) := rfl
      rw [hstep, ih vs _ _ h']
      simp [ssTot, add_assoc]

/-- With a non-finite slope the residual sum is non-finite after the first
iteration. -/
theorem ssLoop_nonfinite (x y : List ℚ) (intercept : Option ℚ) (mean_y b : ℚ) (r : Option ℚ)
    (h : x.length = y.length) :
    ((List.zip x y).foldl (fun st p => ssUpdate none intercept mean_y st p.1 p.2) (r, b)).1
      = if x = [] then r else none := by
  induction x generalizing y r b with
  | nil => simp
  | cons u us ih =>
    cases y with
    | nil => simp at h
    | cons v vs =>
      have h' : us.length = vs.length := by simpa using h
      have hstep : ssUpdate none intercept mean_y (r, b) u v = (none, b + (v - mean_y) ^ 2) := by
        cases r <;> cases intercept <;> rfl
      simp only [List.zip_cons_cons, List.foldl_cons, hstep]
      rw [ih vs _ _ h']
      simp

/-- The slope computed by `linearRegression` is the quotient of `slopeNumerator`
and `slopeDenominator`. -/
theorem linearRegression_unfold (x y : List ℚ) :
    linearRegression x y =
      if x.length = 0 then ⟨some 0, some 0, some 0⟩
      else
        let slope := ddiv (slopeNumerator x y) (slopeDenominator x)
        let mean_y := accumulate y 0 / (x.length : ℚ)
        let intercept := dsub (some mean_y) (dmul slope (some (accumulate x 0 / (x.length : ℚ))))
        let ss := (List.range x.length).foldl (ssStep x y slope intercept mean_y) (some 0, 0)
        ⟨slope, intercept,
          if ss.2 > 0 then dsub (some 1) (ss.1.bind (fun r => ddiv r ss.2)) else some 1⟩ :=
  rfl

theorem slopeNumerator_eq (x y : List ℚ) :
    slopeNumerator x y = (x.length : ℚ) * sumProd x y - x.sum * y.sum := by
  simp [slopeNumerator, accumulate_eq, inner_product_eq]

theorem slopeDenominator_eq (x : List ℚ) :
    slopeDenominator x = (x.length : ℚ) * sumProd x x - x.sum * x.sum := by
  simp [slopeDenominator, accumulate_eq, inner_product_eq]

/-- The result of `linearRegression` on a non-empty dataset whose slope
denominator is not zero. -/
theorem linearRegression_finite (x y : List ℚ) (h : x.length = y.length) (hx : x ≠ [])
    (hd : slopeDenominator x ≠ 0) :
    linearRegression x y =
      ⟨some (slopeNumerator x y / slopeDenominator x),
       some (mean y - slopeNumerator x y / slopeDenominator x * mean x),
       if ssTot y (mean y) > 0 then
         some (1 - ssRes x y (mean y - slopeNumerator x y / slopeDenominator x * mean x)
            (slopeNumerator x y / slopeDenominator x) / ssTot y (mean y))
       else some 1⟩ := by
  have hn : x.length ≠ 0 := fun h0 => hx (List.length_eq_zero.mp h0)
  have hm : accumulate y 0 / (x.length : ℚ) = mean y := by
    simp [accumulate_eq, mean, h]
  have hmx : accumulate x 0 / (x.length : ℚ) = mean x := by
    simp [accumulate_eq, mean]
  simp only [linearRegression_unfold, if_neg hn, ddiv, if_neg hd, hm, hmx]
  have hi : dsub (some (mean y)) (dmul (some (slopeNumerator x y / slopeDenominator x))
      (some (mean x))) = some (mean y - slopeNumerator x y / slopeDenominator x * mean x) := rfl
  rw [hi, ssLoop_eq_zip _ _ _ _ _ _ h, ssLoop_finite _ _ _ _ _ _ _ h]
  simp only [zero_add]
  by_cases ht : ssTot y (mean y) > 0
  · have ht0 : ssTot y (mean y) ≠ 0 := ne_of_gt ht
    simp [ht, ht0, dsub, lift2]
  · simp [ht]

/-- The result of `linearRegression` on a non-empty dataset whose slope
denominator is zero: slope and intercept are non-finite. -/
theorem linearRegression_nonfinite (x y : List ℚ) (h : x.length = y.length) (hx : x ≠ [])
    (hd : slopeDenominator x = 0) :
    linearRegression x y =
      ⟨none, none, if ssTot y (mean y) > 0 then none else some 1⟩ := by
  have hn : x.length ≠ 0 := fun h0 => hx (List.length_eq_zero.mp h0)
  have hm : accumulate y 0 / (x.length : ℚ) = mean y := by
    simp [accumulate_eq, mean, h]
  simp only [linearRegression_unfold, if_neg hn, ddiv, if_pos hd, hm]
  have hi : ∀ m : ℚ, dsub (some (mean y)) (dmul none (some m)) = none := fun _ => rfl
  rw [hi, ssLoop_eq_zip _ _ _ _ _ _ h]
  have h2 := ssLoop_snd x y none none (mean y) 0 (some 0) h
  have h1 := ssLoop_nonfinite x y none (mean y) 0 (some 0) h
  rw [h1, h2]
  by_cases ht : ssTot y (mean y) > 0
  · simp [ht, hx, dsub, lift2]
  · simp [ht]

/-- C1.  On every non-empty dataset (`x` and `y` of equal length) `linearRegression`
returns the closed-form ordinary-least-squares values of the specification:
`slope = (n·Sxy − Sx·Sy) / (n·Sxx − Sx·Sx)`, `intercept = mean(y) − slope·mean(x)`,
`r_squared = 1 − ss_res/ss_tot` when `ss_tot > 0` and `1` otherwise. -/
theorem linearRegression_eq_closed_form (x y : List ℚ) (h : x.length = y.length)
    (hx : x ≠ []) : linearRegression x y = olsClosedForm x y := by
  by_cases hd : slopeDenominator x = 0
  · rw [linearRegression_nonfinite x y h hx hd]
    have hd' := hd
    rw [slopeDenominator_eq] at hd'
    simp [olsClosedForm, ddiv, hd']
  · rw [linearRegression_finite x y h hx hd]
    have hd' := hd
    rw [slopeDenominator_eq] at hd'
    simp only [olsClosedForm, ddiv, if_neg hd', slopeNumerator_eq, slopeDenominator_eq]

theorem linearRegression_eq_closed_form_witness :
    ([1, 2, 3, 4] : List ℚ).length = ([2, 4, 6, 9] : List ℚ).length ∧
    ([1, 2, 3, 4] : List ℚ) ≠ [] ∧
    linearRegression [1, 2, 3, 4] [2, 4, 6, 9] = olsClosedForm [1, 2, 3, 4] [2, 4, 6, 9] :=
  ⟨rfl, by simp, linearRegression_eq_closed_form [1, 2, 3, 4] [2, 4, 6, 9] rfl (by simp)⟩

/-- The guard `if (n == 0) return {0, 0, 0};`. -/
theorem linearRegression_nil (y : List ℚ) :
    linearRegression [] y = ⟨some 0, some 0, some 0⟩ := by
  simp [linearRegression]

/-! ## Algebra of the sums -/

theorem ssTot_expand (y : List ℚ) (m : ℚ) :
    ssTot y m = sumProd y y - 2 * m * y.sum + (y.length : ℚ) * m ^ 2 := by
  induction y with
  | nil => simp [ssTot, sumProd]
  | cons v vs ih =>
    simp only [ssTot, sumProd, List.map_cons, List.sum_cons, List.zipWith_cons_cons,
      List.length_cons, Nat.cast_succ] at ih ⊢
    rw [ih]; ring

theorem ssRes_expand (x y : List ℚ) (c s : ℚ) (h : x.length = y.length) :
    ssRes x y c s = sumProd y y - 2 * c * y.sum - 2 * s * sumProd x y
      + (x.length : ℚ) * c ^ 2 + 2 * c * s * x.sum + s ^ 2 * sumProd x x := by
  induction x generalizing y with
  | nil =>
    cases y with
    | nil => simp [ssRes, sumProd]
    | cons v vs => simp at h
  | cons u us ih =>
    cases y with
    | nil => simp at h
    | cons v vs =>
      have h' : us.length = vs.length := by simpa using h
      have := ih vs h'
      simp only [ssRes, sumProd, List.sum_cons, List.zipWith_cons_cons,
        List.length_cons, Nat.cast_succ] at this ⊢
      rw [this]; ring

theorem ssTot_nonneg (y : List ℚ) (m : ℚ) : 0 ≤ ssTot y m := by
  unfold ssTot
  apply List.sum_nonneg
  intro a ha
  obtain ⟨v, _, rfl⟩ := List.mem_map.mp ha
  positivity

theorem ssRes_nonneg (x y : List ℚ) (c s : ℚ) : 0 ≤ ssRes x y c s := by
  unfold ssRes
  induction x generalizing y with
  | nil => simp
  | cons u us ih =>
    cases y with
    | nil => simp
    | cons v vs =>
      simp only [List.zipWith_cons_cons, List.sum_cons]
      have := ih vs
      positivity

/-- The total sum of squares about `m` is positive as soon as one value differs
from `m`. -/
theorem ssTot_pos (y : List ℚ) (m : ℚ) (h : ∃ v ∈ y, v ≠ m) : 0 < ssTot y m := by
  obtain ⟨v, hv, hne⟩ := h
  have hle : (v - m) ^ 2 ≤ ssTot y m := by
    unfold ssTot
    apply List.single_le_sum
    · intro a ha
      obtain ⟨w, _, rfl⟩ := List.mem_map.mp ha
      positivity
    · exact List.mem_map.mpr ⟨v, hv, rfl⟩
  have hpos : 0 < (v - m) ^ 2 := by
    have : v - m ≠ 0 := sub_ne_zero.mpr hne
    positivity
  exact lt_of_lt_of_le hpos hle

/-- The total sum of squares is zero when every value equals `m`. -/
theorem ssTot_const (y : List ℚ) (m : ℚ) (h : ∀ v ∈ y, v = m) : ssTot y m = 0 := by
  unfold ssTot
  induction y with
  | nil => simp
  | cons v vs ih =>
    have hv : v = m := h v (List.mem_cons_self _ _)
    have := ih (fun w hw => h w (List.mem_cons_of_mem _ hw))
    simp [hv, this]

/-- The slope denominator is `n` times the sum of squared deviations of `x`
from its mean. -/
theorem slopeDenominator_eq_ssTot (x : List ℚ) (hx : x ≠ []) :
    slopeDenominator x = (x.length : ℚ) * ssTot x (mean x) := by
  have hn : (x.length : ℚ) ≠ 0 := by
    have : x.length ≠ 0 := fun h0 => hx (List.length_eq_zero.mp h0)
    exact_mod_cast this
  rw [slopeDenominator_eq, ssTot_expand, mean]
  field_simp
  ring

/-- Two distinct values in `x` make the slope denominator strictly positive. -/
theorem slopeDenominator_pos (x : List ℚ) (h : ∃ u ∈ x, ∃ v ∈ x, u ≠ v) :
    0 < slopeDenominator x := by
  obtain ⟨u, hu, v, hv, huv⟩ := h
  have hx : x ≠ [] := List.ne_nil_of_mem hu
  have hn : (0 : ℚ) < (x.length : ℚ) := by
    have : 0 < x.length := List.length_pos.mpr hx
    exact_mod_cast this
  rw [slopeDenominator_eq_ssTot x hx]
  apply mul_pos hn
  apply ssTot_pos
  by_cases hum : u = mean x
  · exact ⟨v, hv, fun hvm => huv (hum.trans hvm.symm)⟩
  · exact ⟨u, hu, hum⟩

/-! ## Data on a line -/

theorem sum_line (x : List ℚ) (a b : ℚ) :
    (x.map (fun t => a + b * t)).sum = (x.length : ℚ) * a + b * x.sum := by
  induction x with
  | nil => simp
  | cons u us ih => simp only [List.map_cons, List.sum_cons, List.length_cons, Nat.cast_succ, ih]; ring

theorem sumProd_line (x : List ℚ) (a b : ℚ) :
    sumProd x (x.map (fun t => a + b * t)) = a * x.sum + b * sumProd x x := by
  induction x with
  | nil => simp [sumProd]
  | cons u us ih =>
    simp only [sumProd, List.map_cons, List.zipWith_cons_cons, List.sum_cons] at ih ⊢
    rw [ih]; ring

theorem ssRes_line (x : List ℚ) (a b : ℚ) :
    ssRes x (x.map (fun t => a + b * t)) a b = 0 := by
  induction x with
  | nil => simp [ssRes]
  | cons u us ih =>
    simp only [ssRes, List.map_cons, List.zipWith_cons_cons, List.sum_cons] at ih ⊢
    rw [ih]; ring

/-- The fit of data lying on the line `y = a + b * x`, given a non-zero slope
denominator. -/
theorem line_fit_of_denominator (x : List ℚ) (a b : ℚ) (hx : x ≠ [])
    (hd : slopeDenominator x ≠ 0) :
    linearRegression x (x.map (fun t => a + b * t)) = ⟨some b, some a, some 1⟩ := by
  have hlen : x.length = (x.map (fun t => a + b * t)).length := by simp
  have hn : (x.length : ℚ) ≠ 0 := by
    have : x.length ≠ 0 := fun h0 => hx (List.length_eq_zero.mp h0)
    exact_mod_cast this
  have hnum : slopeNumerator x (x.map (fun t => a + b * t)) = b * slopeDenominator x := by
    rw [slopeNumerator_eq, slopeDenominator_eq, sum_line, sumProd_line]; ring
  have hslope : slopeNumerator x (x.map (fun t => a + b * t)) / slopeDenominator x = b := by
    rw [hnum]; field_simp
  have hmean : mean (x.map (fun t => a + b * t)) - b * mean x = a := by
    simp only [mean, sum_line, List.length_map]
    field_simp
  rw [linearRegression_finite x _ hlen hx hd, hslope, hmean, ssRes_line]
  simp

/-- C2.  For every dataset whose points all lie on one line `y = a + b * x` and that
holds at least two distinct `x` values, `linearRegression` returns slope `b`,
intercept `a` and `r_squared = 1`, exactly. -/
theorem linearRegression_line (x : List ℚ) (a b : ℚ) (h : ∃ u ∈ x, ∃ v ∈ x, u ≠ v) :
    linearRegression x (x.map (fun t => a + b * t)) = ⟨some b, some a, some 1⟩ := by
  have hx : x ≠ [] := by
    obtain ⟨u, hu, _⟩ := h
    exact List.ne_nil_of_mem hu
  exact line_fit_of_denominator x a b hx (ne_of_gt (slopeDenominator_pos x h))

/-- The scenarios of the specification: `{(1,2),(2,4),(3,6),(4,8)}` gives slope 2,
intercept 0, `r_squared` 1, and `{(0,1),(1,1),(2,1)}` gives slope 0, intercept 1,
`r_squared` 1. -/
theorem linearRegression_line_witness :
    ((∃ u ∈ ([1, 2, 3, 4] : List ℚ), ∃ v ∈ ([1, 2, 3, 4] : List ℚ), u ≠ v) ∧
      linearRegression [1, 2, 3, 4] [2, 4, 6, 8] = ⟨some 2, some 0, some 1⟩) ∧
    ((∃ u ∈ ([0, 1, 2] : List ℚ), ∃ v ∈ ([0, 1, 2] : List ℚ), u ≠ v) ∧
      linearRegression [0, 1, 2] [1, 1, 1] = ⟨some 0, some 1, some 1⟩) := by
  have h1 : ∃ u ∈ ([1, 2, 3, 4] : List ℚ), ∃ v ∈ ([1, 2, 3, 4] : List ℚ), u ≠ v :=
    ⟨1, by simp, 2, by simp, by norm_num⟩
  have h2 : ∃ u ∈ ([0, 1, 2] : List ℚ), ∃ v ∈ ([0, 1, 2] : List ℚ), u ≠ v :=
    ⟨0, by simp, 1, by simp, by norm_num⟩
  have e1 : ([2, 4, 6, 8] : List ℚ) = [1, 2, 3, 4].map (fun t => 0 + 2 * t) := by norm_num
  have e2 : ([1, 1, 1] : List ℚ) = [0, 1, 2].map (fun t => 1 + 0 * t) := by norm_num
  refine ⟨⟨h1, ?_⟩, ⟨h2, ?_⟩⟩
  · rw [e1]; exact linearRegression_line [1, 2, 3, 4] 0 2 h1
  · rw [e2]; exact linearRegression_line [0, 1, 2] 1 0 h2

/-! ## Noise-free generated data -/

theorem generateSamples_length (k : ℚ) (n : Int) (noise : Nat → ℚ) :
    (generateSamples k n noise).length = n.toNat := by
  simp [generateSamples]

/-- Without noise every generated `y` is `k_true * x`. -/
theorem generateSamples_noiseless_snd (k : ℚ) (n : Int) :
    (generateSamples k n (fun _ => 0)).map Prod.snd
      = ((generateSamples k n (fun _ => 0)).map Prod.fst).map (fun t => 0 + k * t) := by
  simp [generateSamples, sample, List.map_map, Function.comp_def]

/-- At least two points give two distinct `x` values. -/
theorem generateSamples_two_distinct (k : ℚ) (n : Int) (noise : Nat → ℚ) (hn : 2 ≤ n) :
    ∃ u ∈ (generateSamples k n noise).map Prod.fst,
      ∃ v ∈ (generateSamples k n noise).map Prod.fst, u ≠ v := by
  have h2 : 2 ≤ n.toNat := by omega
  refine ⟨((0 + 1 : Nat) : ℚ) * 0.025, ?_, ((1 + 1 : Nat) : ℚ) * 0.025, ?_, by norm_num⟩
  · simp only [generateSamples, sample, List.map_map, List.mem_map, List.mem_range,
      Function.comp_def]
    exact ⟨0, by omega, rfl⟩
  · simp only [generateSamples, sample, List.map_map, List.mem_map, List.mem_range,
      Function.comp_def]
    exact ⟨1, by omega, rfl⟩

/-- C3 (amended).  For every `true_slope` and every `num_points ≥ 2`, with all noise
draws `0`, `linearRegression` applied to the generated samples returns slope
`true_slope` and `r_squared = 1`. -/
theorem noiseless_fit_recovers_slope (k : ℚ) (n : Int) (hn : 2 ≤ n) :
    (linearRegression ((generateSamples k n (fun _ => 0)).map Prod.fst)
        ((generateSamples k n (fun _ => 0)).map Prod.snd)).slope = some k ∧
    (linearRegression ((generateSamples k n (fun _ => 0)).map Prod.fst)
        ((generateSamples k n (fun _ => 0)).map Prod.snd)).r_squared = some 1 := by
  have hd := generateSamples_two_distinct k n (fun _ => 0) hn
  have hx : (generateSamples k n (fun _ => 0)).map Prod.fst ≠ [] := by
    obtain ⟨u, hu, _⟩ := hd
    exact List.ne_nil_of_mem hu
  rw [generateSamples_noiseless_snd,
    line_fit_of_denominator _ 0 k hx (ne_of_gt (slopeDenominator_pos _ hd))]
  exact ⟨rfl, rfl⟩

theorem noiseless_fit_recovers_slope_witness :
    (2 : Int) ≤ 5 ∧
    (linearRegression ((generateSamples 200 5 (fun _ => 0)).map Prod.fst)
        ((generateSamples 200 5 (fun _ => 0)).map Prod.snd)).slope = some 200 ∧
    (linearRegression ((generateSamples 200 5 (fun _ => 0)).map Prod.fst)
        ((generateSamples 200 5 (fun _ => 0)).map Prod.snd)).r_squared = some 1 :=
  ⟨by decide, noiseless_fit_recovers_slope 200 5 (by decide)⟩

/-- C3 (as stated, refuted).  With `num_points = 0` the generated dataset is empty
and the fit returns slope `0` and `r_squared = 0`, not `true_slope = 200` and `1`;
with `num_points = 1` the slope is not finite. -/
theorem noiseless_fit_fails_below_two_points :
    (0 : Int) ≤ 0 ∧
    ¬ ((linearRegression ((generateSamples 200 0 (fun _ => 0)).map Prod.fst)
          ((generateSamples 200 0 (fun _ => 0)).map Prod.snd)).slope = some 200 ∧
       (linearRegression ((generateSamples 200 0 (fun _ => 0)).map Prod.fst)
          ((generateSamples 200 0 (fun _ => 0)).map Prod.snd)).r_squared = some 1) ∧
    (linearRegression ((generateSamples 200 1 (fun _ => 0)).map Prod.fst)
          ((generateSamples 200 1 (fun _ => 0)).map Prod.snd)).slope = none := by
  refine ⟨le_refl _, ?_, ?_⟩
  · have h0 : generateSamples 200 0 (fun _ => 0) = [] := by simp [generateSamples]
    rw [h0]
    simp [linearRegression]
  · have h1 : generateSamples 200 1 (fun _ => 0) = [((0.025 : ℚ), (5 : ℚ))] := by
      norm_num [generateSamples, sample, List.range_succ]
    rw [h1]
    have hd : slopeDenominator [(0.025 : ℚ)] = 0 := by
      norm_num [slopeDenominator, inner_product, accumulate]
    simp only [List.map_cons, List.map_nil]
    rw [linearRegression_nonfinite [(0.025 : ℚ)] [(5 : ℚ)] rfl (by simp) hd]

/-! ## Degenerate datasets -/

/-- C4.  On the empty dataset `linearRegression` returns `{0, 0, 0}`: the guard
`n == 0` returns before any sum or division is formed, so the result does not
depend on anything else. -/
theorem linearRegression_empty :
    linearRegression [] [] = ⟨some 0, some 0, some 0⟩ ∧
    ∀ y : List ℚ, linearRegression [] y = ⟨some 0, some 0, some 0⟩ :=
  ⟨linearRegression_nil [], linearRegression_nil⟩

theorem mean_const (y : List ℚ) (c : ℚ) (hy : y ≠ []) (h : ∀ v ∈ y, v = c) : mean y = c := by
  have hs : y.sum = (y.length : ℚ) * c := by
    clear hy
    induction y with
    | nil => simp
    | cons v vs ih =>
      have hv : v = c := h v (List.mem_cons_self _ _)
      have := ih (fun w hw => h w (List.mem_cons_of_mem _ hw))
      simp only [List.sum_cons, List.length_cons, Nat.cast_succ, this, hv]; ring
  have hn : (y.length : ℚ) ≠ 0 := by
    have : y.length ≠ 0 := fun h0 => hy (List.length_eq_zero.mp h0)
    exact_mod_cast this
  rw [mean, hs]; field_simp

/-- In exact arithmetic, for every non-empty dataset in which every `y` value is
the same, `linearRegression` returns `r_squared = 1`, whatever the `x` values are (also
when they are all identical and the slope is not finite). -/
theorem r_squared_constant_y (x y : List ℚ) (c : ℚ) (h : x.length = y.length) (hx : x ≠ [])
    (hc : ∀ v ∈ y, v = c) : (linearRegression x y).r_squared = some 1 := by
  have hy : y ≠ [] := by
    intro h0; rw [h0] at h; exact hx (List.length_eq_zero.mp h)
  have hm : mean y = c := mean_const y c hy hc
  have ht : ¬ ssTot y (mean y) > 0 := by
    rw [hm, ssTot_const y c hc]; exact lt_irrefl 0
  by_cases hd : slopeDenominator x = 0
  · rw [linearRegression_nonfinite x y h hx hd]; simp [ht]
  · rw [linearRegression_finite x y h hx hd]; simp [ht]

theorem r_squared_constant_y_witness :
    ([1, 2, 3] : List ℚ).length = ([5, 5, 5] : List ℚ).length ∧ ([1, 2, 3] : List ℚ) ≠ [] ∧
    (∀ v ∈ ([5, 5, 5] : List ℚ), v = 5) ∧
    (linearRegression [1, 2, 3] [5, 5, 5]).r_squared = some 1 :=
  ⟨rfl, by simp, by simp,
    r_squared_constant_y [1, 2, 3] [5, 5, 5] 5 rfl (by simp) (by simp)⟩

/-! ## Range of `r_squared` -/

/-- The least-squares line leaves no more residual than the total sum of squares:
`ss_tot − ss_res = (n·Sxy − Sx·Sy)² / (n · (n·Sxx − Sx·Sx))`. -/
theorem ssTot_sub_ssRes (x y : List ℚ) (h : x.length = y.length) (hx : x ≠ [])
    (hd : slopeDenominator x ≠ 0) :
    ssTot y (mean y)
      - ssRes x y (mean y - slopeNumerator x y / slopeDenominator x * mean x)
          (slopeNumerator x y / slopeDenominator x)
      = slopeNumerator x y ^ 2 / ((x.length : ℚ) * slopeDenominator x) := by
  have hn : (x.length : ℚ) ≠ 0 := by
    have : x.length ≠ 0 := fun h0 => hx (List.length_eq_zero.mp h0)
    exact_mod_cast this
  have hny : (y.length : ℚ) = (x.length : ℚ) := by rw [h]
  rw [ssTot_expand, ssRes_expand x y _ _ h]
  simp only [mean, hny]
  have hN := slopeNumerator_eq x y
  have hD := slopeDenominator_eq x
  generalize slopeNumerator x y = N at hN ⊢
  generalize slopeDenominator x = D at hD hd ⊢
  generalize sumProd x y = Sxy at hN ⊢
  generalize sumProd x x = Sxx at hD ⊢
  generalize sumProd y y = Syy
  generalize x.sum = Sx at hN hD ⊢
  generalize y.sum = Sy at hN ⊢
  generalize (x.length : ℚ) = n at hn hN hD ⊢
  have hSxy : Sxy = (N + Sx * Sy) / n := by field_simp; linarith
  have hSxx : Sxx = (D + Sx * Sx) / n := by field_simp; linarith
  rw [hSxy, hSxx]
  field_simp
  ring

/-- Whenever `linearRegression` returns a finite `r_squared` on a dataset, it lies
between `0` and `1`. -/
theorem r_squared_range (x y : List ℚ) (r : ℚ) (h : x.length = y.length)
    (hr : (linearRegression x y).r_squared = some r) : 0 ≤ r ∧ r ≤ 1 := by
  by_cases hx : x = []
  · subst hx
    rw [linearRegression_nil] at hr
    have : r = 0 := by simpa using hr.symm
    subst this
    exact ⟨le_refl _, zero_le_one⟩
  by_cases hd : slopeDenominator x = 0
  · rw [linearRegression_nonfinite x y h hx hd] at hr
    by_cases ht : ssTot y (mean y) > 0
    · simp [ht] at hr
    · have : r = 1 := by simpa [ht] using hr.symm
      subst this
      exact ⟨zero_le_one, le_refl _⟩
  · rw [linearRegression_finite x y h hx hd] at hr
    by_cases ht : ssTot y (mean y) > 0
    · simp only [if_pos ht, Option.some.injEq] at hr
      have hdiff := ssTot_sub_ssRes x y h hx hd
      have hres := ssRes_nonneg x y (mean y - slopeNumerator x y / slopeDenominator x * mean x)
        (slopeNumerator x y / slopeDenominator x)
      have hdpos : 0 < slopeDenominator x := by
        have h0 : 0 ≤ slopeDenominator x := by
          rw [slopeDenominator_eq_ssTot x hx]
          exact mul_nonneg (Nat.cast_nonneg _) (ssTot_nonneg _ _)
        exact lt_of_le_of_ne h0 (Ne.symm hd)
      have hnpos : (0 : ℚ) < (x.length : ℚ) := by
        have : 0 < x.length := List.length_pos.mpr hx
        exact_mod_cast this
      have hge : 0 ≤ slopeNumerator x y ^ 2 / ((x.length : ℚ) * slopeDenominator x) :=
        div_nonneg (sq_nonneg _) (le_of_lt (mul_pos hnpos hdpos))
      rw [← hdiff] at hge
      rw [← hr]
      constructor
      · rw [sub_nonneg, div_le_one ht]; linarith
      · have : 0 ≤ ssRes x y (mean y - slopeNumerator x y / slopeDenominator x * mean x)
            (slopeNumerator x y / slopeDenominator x) / ssTot y (mean y) :=
          div_nonneg hres (le_of_lt ht)
        linarith
    · have : r = 1 := by simpa [ht] using hr.symm
      subst this
      exact ⟨zero_le_one, le_refl _⟩

/-- In exact arithmetic no dataset of as many `x` as `y` values makes
`linearRegression` return a negative `r_squared`. -/
theorem no_negative_r_squared :
    ¬ ∃ (x y : List ℚ) (r : ℚ), x.length = y.length ∧
        (linearRegression x y).r_squared = some r ∧ r < 0 := by
  rintro ⟨x, y, r, h, hr, hneg⟩
  exact absurd (r_squared_range x y r h hr).1 (not_le.mpr hneg)

/-- In exact arithmetic `r_squared` is returned unclamped, as `1 − ss_res/ss_tot` (or `1`
when `ss_tot` is not positive), and that value is never negative: whenever `linearRegression` returns a finite `r_squared` on a non-empty
dataset, it is that expression and it is at least `0`. -/
theorem r_squared_unclamped_nonneg (x y : List ℚ) (r : ℚ) (h : x.length = y.length)
    (hx : x ≠ []) (hr : (linearRegression x y).r_squared = some r) :
    r = (if ssTot y (mean y) > 0 then
            1 - ssRes x y (mean y - slopeNumerator x y / slopeDenominator x * mean x)
              (slopeNumerator x y / slopeDenominator x) / ssTot y (mean y)
          else 1) ∧
      0 ≤ r := by
  refine ⟨?_, (r_squared_range x y r h hr).1⟩
  by_cases hd : slopeDenominator x = 0
  · rw [linearRegression_nonfinite x y h hx hd] at hr
    by_cases ht : ssTot y (mean y) > 0
    · simp [ht] at hr
    · simpa [ht] using hr.symm
  · rw [linearRegression_finite x y h hx hd] at hr
    by_cases ht : ssTot y (mean y) > 0
    · simpa [ht] using hr.symm
    · simpa [ht] using hr.symm

theorem r_squared_unclamped_nonneg_witness :
    ([1, 2, 3, 4] : List ℚ).length = ([2, 4, 6, 9] : List ℚ).length ∧
    ([1, 2, 3, 4] : List ℚ) ≠ [] ∧
    (linearRegression [1, 2, 3, 4] [2, 4, 6, 9]).r_squared = some (529 / 535) ∧
    ((529 / 535 : ℚ) = (if ssTot [2, 4, 6, 9] (mean [2, 4, 6, 9]) > 0 then
            1 - ssRes [1, 2, 3, 4] [2, 4, 6, 9]
              (mean [2, 4, 6, 9] - slopeNumerator [1, 2, 3, 4] [2, 4, 6, 9]
                / slopeDenominator [1, 2, 3, 4] * mean [1, 2, 3, 4])
              (slopeNumerator [1, 2, 3, 4] [2, 4, 6, 9] / slopeDenominator [1, 2, 3, 4])
              / ssTot [2, 4, 6, 9] (mean [2, 4, 6, 9])
          else 1) ∧
      (0 : ℚ) ≤ 529 / 535) :=
  have hd : slopeDenominator [1, 2, 3, 4] ≠ 0 := by
    norm_num [slopeDenominator, inner_product, accumulate]
  have hr : (linearRegression [1, 2, 3, 4] [2, 4, 6, 9]).r_squared = some (529 / 535) := by
    rw [linearRegression_finite [1, 2, 3, 4] [2, 4, 6, 9] rfl (by simp) hd]
    norm_num [slopeDenominator, slopeNumerator, inner_product, accumulate, ssTot, ssRes, mean]
  ⟨rfl, by simp, hr,
    r_squared_unclamped_nonneg [1, 2, 3, 4] [2, 4, 6, 9] (529 / 535) rfl (by simp) hr⟩

/-! ## Decimal digits -/

theorem digitChar_isDigit (k : Nat) (h : k < 10) : (Nat.digitChar k).isDigit = true := by
  interval_cases k <;> decide

theorem digitChar_value (k : Nat) (h : k < 10) : (Nat.digitChar k).toNat - '0'.toNat = k := by
  interval_cases k <;> decide

theorem digitChar_value_lit (k : Nat) (h : k < 10) : (Nat.digitChar k).toNat - 48 = k :=
  digitChar_value k h

theorem digitsValue_foldl (ds : List Char) (acc : Nat) :
    ds.foldl (fun a c => a * 10 + (c.toNat - '0'.toNat)) acc
      = acc * 10 ^ ds.length + digitsValue ds := by
  unfold digitsValue
  induction ds generalizing acc with
  | nil => simp
  | cons c cs ih =>
    simp only [List.foldl_cons, List.length_cons]
    rw [ih, ih (0 * 10 + (c.toNat - '0'.toNat))]
    ring

theorem digitsValue_append (a b : List Char) :
    digitsValue (a ++ b) = digitsValue a * 10 ^ b.length + digitsValue b := by
  conv_lhs => unfold digitsValue
  rw [List.foldl_append, digitsValue_foldl]
  rfl

/-- The digits produced for `n` are prepended to the accumulator, are decimal
digits, and write the number `n`. -/
theorem toDigitsCore_spec (fuel n : Nat) (ds : List Char) (h : n < fuel) :
    ∃ l : List Char, Nat.toDigitsCore 10 fuel n ds = l ++ ds ∧ l ≠ [] ∧
      (∀ c ∈ l, c.isDigit = true) ∧ digitsValue l = n := by
  induction fuel generalizing n ds with
  | zero => omega
  | succ fuel ih =>
    have hmod : n % 10 < 10 := Nat.mod_lt _ (by decide)
    by_cases h0 : n / 10 = 0
    · refine ⟨[Nat.digitChar (n % 10)], ?_, by simp, ?_, ?_⟩
      · simp [Nat.toDigitsCore, h0]
      · intro c hc
        simp only [List.mem_singleton] at hc
        rw [hc]; exact digitChar_isDigit _ hmod
      · have hn : n % 10 = n := by omega
        have hv := digitChar_value _ hmod
        simp only [digitsValue, List.foldl_cons, List.foldl_nil]
        omega
    · have hlt : n / 10 < fuel := by omega
      obtain ⟨l, hl, _, hdig, hval⟩ := ih (n / 10) (Nat.digitChar (n % 10) :: ds) hlt
      refine ⟨l ++ [Nat.digitChar (n % 10)], ?_, by simp, ?_, ?_⟩
      · simp [Nat.toDigitsCore, h0, hl]
      · intro c hc
        rcases List.mem_append.mp hc with hc | hc
        · exact hdig c hc
        · simp only [List.mem_singleton] at hc
          rw [hc]; exact digitChar_isDigit _ hmod
      · rw [digitsValue_append, hval]
        simp [digitsValue, digitChar_value_lit _ hmod]
        omega

theorem toDigits_ne_nil (n : Nat) : Nat.toDigits 10 n ≠ [] := by
  obtain ⟨l, hl, hne, _, _⟩ := toDigitsCore_spec (n + 1) n [] (Nat.lt_succ_self n)
  simp only [Nat.toDigits, hl, List.append_nil]; exact hne

theorem toDigits_isDigit (n : Nat) : ∀ c ∈ Nat.toDigits 10 n, c.isDigit = true := by
  obtain ⟨l, hl, _, hdig, _⟩ := toDigitsCore_spec (n + 1) n [] (Nat.lt_succ_self n)
  simp only [Nat.toDigits, hl, List.append_nil]; exact hdig

theorem digitsValue_toDigits (n : Nat) : digitsValue (Nat.toDigits 10 n) = n := by
  obtain ⟨l, hl, _, _, hval⟩ := toDigitsCore_spec (n + 1) n [] (Nat.lt_succ_self n)
  simp only [Nat.toDigits, hl, List.append_nil]; exact hval

theorem frac4_length (d : Nat) : (frac4 d).length = 4 := rfl

theorem frac4_isDigit (d : Nat) : ∀ c ∈ frac4 d, c.isDigit = true := by
  intro c hc
  simp only [frac4, List.mem_cons, List.mem_singleton, List.not_mem_nil, or_false] at hc
  rcases hc with hc | hc | hc | hc <;> rw [hc] <;>
    exact digitChar_isDigit _ (Nat.mod_lt _ (by decide))

theorem digitsValue_frac4 (d : Nat) (h : d < 10000) : digitsValue (frac4 d) = d := by
  simp only [frac4, digitsValue, List.foldl_cons, List.foldl_nil,
    digitChar_value _ (Nat.mod_lt _ (by decide : 0 < 10))]
  omega

/-! ## Rounding to four decimals -/

theorem roundHalfEven_natCast (m : Nat) : roundHalfEven (m : ℚ) = (m : Int) := by
  have hf : ⌊(m : ℚ)⌋ = (m : Int) := by
    have : ((m : Int) : ℚ) = (m : ℚ) := by simp
    rw [← this, Int.floor_intCast]
  simp only [roundHalfEven, hf]
  norm_num

theorem roundHalfEven_nonneg (q : ℚ) (h : 0 ≤ q) : 0 ≤ roundHalfEven q := by
  have hf : 0 ≤ ⌊q⌋ := Int.floor_nonneg.mpr h
  unfold roundHalfEven
  simp only
  split_ifs <;> omega

theorem roundHalfEven_error (q : ℚ) : |((roundHalfEven q : Int) : ℚ) - q| ≤ 1 / 2 := by
  have h1 : (⌊q⌋ : ℚ) ≤ q := Int.floor_le q
  have h2 : q < (⌊q⌋ : ℚ) + 1 := Int.lt_floor_add_one q
  unfold roundHalfEven
  simp only
  rw [abs_le]
  split_ifs with ha hb hc
  · constructor <;> linarith
  · push_cast; constructor <;> linarith
  · constructor <;> linarith
  · push_cast; constructor <;> linarith

/-- The scaled magnitude of a value that is a whole number of `10⁻⁴` units. -/
theorem scaled4_of_eq (v : ℚ) (m : Nat) (h : |v| * 10000 = (m : ℚ)) : scaled4 v = m := by
  simp [scaled4, h, roundHalfEven_natCast]

theorem scaled4_cast (v : ℚ) : ((scaled4 v : Nat) : ℚ) = ((roundHalfEven (|v| * 10000) : Int) : ℚ) := by
  have h : 0 ≤ roundHalfEven (|v| * 10000) :=
    roundHalfEven_nonneg _ (mul_nonneg (abs_nonneg v) (by norm_num))
  unfold scaled4
  have : ((roundHalfEven (|v| * 10000)).toNat : Int) = roundHalfEven (|v| * 10000) :=
    Int.toNat_of_nonneg h
  exact_mod_cast congrArg (fun z : Int => (z : ℚ)) this

/-! ## Shape of the written text -/

theorem generate_eq_join (k : ℚ) (n : Int) (noise : Nat → ℚ) :
    generate_data_to_file k n noise
      = header ++ ((generateSamples k n noise).map formatLine).flatten := by
  unfold generate_data_to_file
  generalize generateSamples k n noise = s
  generalize header = h
  induction s generalizing h with
  | nil => simp
  | cons p ps ih => simp [List.foldl_cons, ih, List.append_assoc]

theorem takeWhile_append_stop {p : Char → Bool} (l r : List Char) (c : Char)
    (hl : ∀ a ∈ l, p a = true) (hc : p c = false) :
    (l ++ c :: r).takeWhile p = l := by
  induction l with
  | nil => simp [List.takeWhile, hc]
  | cons a as ih =>
    have ha : p a = true := hl a (List.mem_cons_self _ _)
    simp [List.takeWhile, ha, ih (fun b hb => hl b (List.mem_cons_of_mem _ hb))]

theorem dropWhile_append_stop {p : Char → Bool} (l r : List Char) (c : Char)
    (hl : ∀ a ∈ l, p a = true) (hc : p c = false) :
    (l ++ c :: r).dropWhile p = c :: r := by
  induction l with
  | nil => simp [List.dropWhile, hc]
  | cons a as ih =>
    have ha : p a = true := hl a (List.mem_cons_self _ _)
    simp [List.dropWhile, ha, ih (fun b hb => hl b (List.mem_cons_of_mem _ hb))]

theorem takeWhile_all {p : Char → Bool} (l : List Char) (hl : ∀ a ∈ l, p a = true) :
    l.takeWhile p = l := by
  induction l with
  | nil => rfl
  | cons a as ih =>
    have ha : p a = true := hl a (List.mem_cons_self _ _)
    simp [List.takeWhile, ha, ih (fun b hb => hl b (List.mem_cons_of_mem _ hb))]

theorem dropWhile_all {p : Char → Bool} (l : List Char) (hl : ∀ a ∈ l, p a = true) :
    l.dropWhile p = [] := by
  induction l with
  | nil => rfl
  | cons a as ih =>
    have ha : p a = true := hl a (List.mem_cons_self _ _)
    simp [List.dropWhile, ha, ih (fun b hb => hl b (List.mem_cons_of_mem _ hb))]

/-- A numeral made of an optional `-`, digits, `.` and four digits passes the
format test. -/
theorem isFixed4_of_shape (neg : Bool) (ip fp : List Char) (hne : ip ≠ [])
    (hip : ∀ c ∈ ip, c.isDigit = true) (hlen : fp.length = 4)
    (hfp : ∀ c ∈ fp, c.isDigit = true) :
    isFixed4 ((if neg then ['-'] else []) ++ ip ++ ['.'] ++ fp) = true := by
  have hdot : Char.isDigit '.' = false := by decide
  obtain ⟨d, ds, rfl⟩ := List.exists_cons_of_ne_nil hne
  have hd : d.isDigit = true := hip d (List.mem_cons_self _ _)
  have hdm : d ≠ '-' := by
    intro h; rw [h] at hd; exact absurd hd (by decide)
  have hbody : (match (if neg then ['-'] else []) ++ (d :: ds) ++ ['.'] ++ fp with
      | '-' :: r => r
      | r => r) = (d :: ds) ++ '.' :: fp := by
    cases neg
    · simp only [Bool.false_eq_true, if_false, List.nil_append, List.cons_append,
        List.append_assoc]
      split
      · next r heq => exact absurd (List.cons.inj heq).1 hdm
      · simp
    · simp
  unfold isFixed4
  simp only [hbody]
  rw [takeWhile_append_stop _ _ _ hip hdot, dropWhile_append_stop _ _ _ hip hdot]
  simp [hlen, List.all_eq_true]
  exact hfp

theorem fixed4_isFixed4 (v : ℚ) : isFixed4 (fixed4 v) = true := by
  have h := isFixed4_of_shape (decide (v < 0)) (Nat.toDigits 10 (scaled4 v / 10000))
    (frac4 (scaled4 v % 10000)) (toDigits_ne_nil _) (toDigits_isDigit _) (frac4_length _)
    (frac4_isDigit _)
  simpa [fixed4] using h

/-- The field written for a non-negative value that is a whole number `m` of
`10⁻⁴` units. -/
theorem fixed4_eval (v : ℚ) (m : Nat) (hv : 0 ≤ v) (h : v * 10000 = (m : ℚ)) :
    fixed4 v = Nat.toDigits 10 (m / 10000) ++ ['.'] ++ frac4 (m % 10000) := by
  have hs : scaled4 v = m := scaled4_of_eq v m (by rw [abs_of_nonneg hv]; exact h)
  simp [fixed4, hs, not_lt.mpr hv]

/-- The text written for `true_slope = 200`, 5 points and no noise. -/
theorem generate_200_5_chars :
    generate_data_to_file 200 5 (fun _ => 0)
      = ("displacement_m,force_N\n0.0250,5.0000\n0.0500,10.0000\n0.0750,15.0000\n"
          ++ "0.1000,20.0000\n0.1250,25.0000\n").toList := by
  have hs : generateSamples 200 5 (fun _ => 0)
      = [(1 / 40, 5), (1 / 20, 10), (3 / 40, 15), (1 / 10, 20), (1 / 8, 25)] := by
    have h5 : Int.toNat 5 = 5 := rfl
    norm_num [generateSamples, sample, List.range_succ, h5]
  have x1 : fixed4 (1 / 40) = "0.0250".toList := by
    rw [fixed4_eval _ 250 (by norm_num) (by norm_num)]; decide
  have x2 : fixed4 (1 / 20) = "0.0500".toList := by
    rw [fixed4_eval _ 500 (by norm_num) (by norm_num)]; decide
  have x3 : fixed4 (3 / 40) = "0.0750".toList := by
    rw [fixed4_eval _ 750 (by norm_num) (by norm_num)]; decide
  have x4 : fixed4 (1 / 10) = "0.1000".toList := by
    rw [fixed4_eval _ 1000 (by norm_num) (by norm_num)]; decide
  have x5 : fixed4 (1 / 8) = "0.1250".toList := by
    rw [fixed4_eval _ 1250 (by norm_num) (by norm_num)]; decide
  have y1 : fixed4 5 = "5.0000".toList := by
    rw [fixed4_eval _ 50000 (by norm_num) (by norm_num)]; decide
  have y2 : fixed4 10 = "10.0000".toList := by
    rw [fixed4_eval _ 100000 (by norm_num) (by norm_num)]; decide
  have y3 : fixed4 15 = "15.0000".toList := by
    rw [fixed4_eval _ 150000 (by norm_num) (by norm_num)]; decide
  have y4 : fixed4 20 = "20.0000".toList := by
    rw [fixed4_eval _ 200000 (by norm_num) (by norm_num)]; decide
  have y5 : fixed4 25 = "25.0000".toList := by
    rw [fixed4_eval _ 250000 (by norm_num) (by norm_num)]; decide
  simp only [generate_data_to_file, hs, List.foldl_cons, List.foldl_nil, formatLine,
    x1, x2, x3, x4, x5, y1, y2, y3, y4, y5, header]
  decide

/-- C7 (amended).  `generate_data_to_file` with true slope 200, 5 points and no noise
writes the header line `displacement_m,force_N` followed by exactly the 5 data
lines `0.0250,5.0000`, `0.0500,10.0000`, `0.0750,15.0000`, `0.1000,20.0000`,
`0.1250,25.0000`, every field having exactly 4 decimal digits. -/
theorem generate_200_5_text :
    generate_data_to_file 200 5 (fun _ => 0)
      = "displacement_m,force_N\n".toList
        ++ (["0.0250,5.0000\n".toList, "0.0500,10.0000\n".toList, "0.0750,15.0000\n".toList,
             "0.1000,20.0000\n".toList, "0.1250,25.0000\n".toList]).flatten ∧
    (∀ f ∈ ["0.0250".toList, "5.0000".toList, "0.0500".toList, "10.0000".toList,
        "0.0750".toList, "15.0000".toList, "0.1000".toList, "20.0000".toList,
        "0.1250".toList, "25.0000".toList], isFixed4 f = true) := by
  refine ⟨?_, by decide⟩
  rw [generate_200_5_chars]
  decide

/-- C7 (as stated, refuted).  The first data line written for true slope 200 is not
`0.0250,0.5000`: the text does not start with the header followed by that line. -/
theorem generate_200_5_first_line_not_half :
    ¬ ∃ rest : List Char, generate_data_to_file 200 5 (fun _ => 0)
        = "displacement_m,force_N\n0.0250,0.5000\n".toList ++ rest := by
  rw [generate_200_5_chars]
  rintro ⟨rest, h⟩
  have h' := congrArg (fun l => l.take 31) h
  simp only at h'
  revert h'
  rw [List.take_append_of_le_length (by decide)]
  decide

/-- Every character of a written field is `-`, `.` or a decimal digit. -/
theorem fixed4_chars (v : ℚ) : ∀ c ∈ fixed4 v, c = '-' ∨ c = '.' ∨ c.isDigit = true := by
  intro c hc
  simp only [fixed4, List.mem_append, List.mem_singleton] at hc
  rcases hc with ((hc | hc) | hc) | hc
  · left
    by_cases hv : v < 0
    · simpa [hv] using hc
    · simp [hv] at hc
  · exact Or.inr (Or.inr (toDigits_isDigit _ c hc))
  · exact Or.inr (Or.inl hc)
  · exact Or.inr (Or.inr (frac4_isDigit _ c hc))

/-- In exact arithmetic, for every `true_slope`, `num_points ≥ 0` and noise
sequence, the text written by `generate_data_to_file` is the header line `displacement_m,force_N` followed by
exactly `num_points` lines, each of the form `x,y` ended by a newline, where both
fields are decimal numerals with exactly 4 digits after the `.` and hold no other
character than `-`, `.` and digits (no white space, no further comma). -/
theorem generated_text_format (k : ℚ) (n : Int) (noise : Nat → ℚ) (hn : 0 ≤ n) :
    ∃ lines : List (List Char),
      generate_data_to_file k n noise = "displacement_m,force_N\n".toList ++ lines.flatten ∧
      (lines.length : Int) = n ∧
      ∀ l ∈ lines, ∃ fx fy : List Char, l = fx ++ [','] ++ fy ++ ['\n'] ∧
        isFixed4 fx = true ∧ isFixed4 fy = true ∧
        ∀ c ∈ fx ++ fy, c = '-' ∨ c = '.' ∨ c.isDigit = true := by
  refine ⟨(generateSamples k n noise).map formatLine, generate_eq_join k n noise, ?_, ?_⟩
  · rw [List.length_map, generateSamples_length]
    exact Int.toNat_of_nonneg hn
  · intro l hl
    obtain ⟨p, _, rfl⟩ := List.mem_map.mp hl
    refine ⟨fixed4 p.1, fixed4 p.2, rfl, fixed4_isFixed4 _, fixed4_isFixed4 _, ?_⟩
    intro c hc
    rcases List.mem_append.mp hc with h | h
    · exact fixed4_chars _ c h
    · exact fixed4_chars _ c h

theorem generated_text_format_witness :
    (0 : Int) ≤ 3 ∧
    ∃ lines : List (List Char),
      generate_data_to_file (-200) 3 (fun i => (i : ℚ) / 7)
        = "displacement_m,force_N\n".toList ++ lines.flatten ∧
      (lines.length : Int) = 3 ∧
      ∀ l ∈ lines, ∃ fx fy : List Char, l = fx ++ [','] ++ fy ++ ['\n'] ∧
        isFixed4 fx = true ∧ isFixed4 fy = true ∧
        ∀ c ∈ fx ++ fy, c = '-' ∨ c = '.' ∨ c.isDigit = true :=
  ⟨by decide, generated_text_format (-200) 3 (fun i => (i : ℚ) / 7) (by decide)⟩

/-! ## `getline` on known text -/

theorem span_append_stop (w rest : List Char) (delim : Char) (hw : delim ∉ w) :
    (w ++ delim :: rest).span (fun c => c != delim) = (w, delim :: rest) := by
  have hp : ∀ a ∈ w, (fun c : Char => c != delim) a = true := by
    intro a ha
    have : a ≠ delim := fun h => hw (h ▸ ha)
    simpa using this
  have hc : (fun c : Char => c != delim) delim = false := by simp
  rw [List.span_eq_take_drop, takeWhile_append_stop w rest delim hp hc,
    dropWhile_append_stop w rest delim hp hc]

theorem span_no_stop (w : List Char) (delim : Char) (hw : delim ∉ w) :
    w.span (fun c => c != delim) = (w, []) := by
  have hp : ∀ a ∈ w, (fun c : Char => c != delim) a = true := by
    intro a ha
    have : a ≠ delim := fun h => hw (h ▸ ha)
    simpa using this
  rw [List.span_eq_take_drop, takeWhile_all w hp, dropWhile_all w hp]

/-- On a good stream whose text holds the delimiter, `getline` extracts the text
before the first delimiter and leaves the stream good. -/
theorem getline_delim (w rest str : List Char) (delim : Char) (hw : delim ∉ w) :
    getline ⟨w ++ delim :: rest, false, false⟩ str delim = (⟨rest, false, false⟩, w) := by
  simp only [getline, IStream.good, Bool.not_false, Bool.and_self, if_true]
  rw [span_append_stop w rest delim hw]

/-- On a good stream whose text holds no delimiter, `getline` extracts all of it
and sets `eofbit`, and `failbit` too when there was nothing to extract. -/
theorem getline_eof (w str : List Char) (delim : Char) (hw : delim ∉ w) :
    getline ⟨w, false, false⟩ str delim = (⟨[], true, w.isEmpty⟩, w) := by
  simp only [getline, IStream.good, Bool.not_false, Bool.and_self, if_true]
  rw [span_no_stop w delim hw]

/-- On a stream that is not good `getline` sets `failbit` and leaves the string. -/
theorem getline_not_good (s : IStream) (str : List Char) (delim : Char)
    (h : s.good = false) : getline s str delim = (⟨s.buf, s.eofbit, true⟩, str) := by
  simp [getline, h]

/-! ## `stod` on a written field -/

theorem isDigit_not_space (d : Char) (h : d.isDigit = true) : isSpace d = false := by
  have h1 : d ≠ ' ' := by rintro rfl; exact absurd h (by decide)
  have h2 : d ≠ '\t' := by rintro rfl; exact absurd h (by decide)
  have h3 : d ≠ '\n' := by rintro rfl; exact absurd h (by decide)
  have h4 : d ≠ '\x0b' := by rintro rfl; exact absurd h (by decide)
  have h5 : d ≠ '\x0c' := by rintro rfl; exact absurd h (by decide)
  have h6 : d ≠ '\r' := by rintro rfl; exact absurd h (by decide)
  simp [isSpace, h1, h2, h3, h4, h5, h6]

theorem isHexPrefix_false (d c : Char) (r : List Char) (hx : c ≠ 'x') (hX : c ≠ 'X') :
    isHexPrefix (d :: c :: r) = false := by
  unfold isHexPrefix
  split
  · next c' r' heq =>
    have hc : c = c' := (List.cons.inj (List.cons.inj heq).2).1
    subst hc
    simp [hx, hX]
  · rfl

theorem isInfNan_false (d : Char) (r : List Char) (hd : d.isDigit = true) :
    isInfNan (d :: r) = false := by
  have h1 : d ≠ 'i' := by rintro rfl; exact absurd hd (by decide)
  have h2 : d ≠ 'I' := by rintro rfl; exact absurd hd (by decide)
  have h3 : d ≠ 'n' := by rintro rfl; exact absurd hd (by decide)
  have h4 : d ≠ 'N' := by rintro rfl; exact absurd hd (by decide)
  unfold isInfNan
  split
  · next a b c _ heq =>
    have ha : d = a := (List.cons.inj heq).1
    subst ha
    simp [h1, h2, h3, h4]
  · rfl

/-- Digits followed by `.` do not start a hexadecimal, `INF` or `NAN` literal. -/
theorem isSpecial_digits_dot (ip fp : List Char) (hne : ip ≠ [])
    (hip : ∀ c ∈ ip, c.isDigit = true) : isSpecial (ip ++ '.' :: fp) = false := by
  obtain ⟨d, ds, rfl⟩ := List.exists_cons_of_ne_nil hne
  have hd : d.isDigit = true := hip d (List.mem_cons_self _ _)
  have hinf : isInfNan ((d :: ds) ++ '.' :: fp) = false := isInfNan_false d _ hd
  have hhex : isHexPrefix ((d :: ds) ++ '.' :: fp) = false := by
    cases ds with
    | nil => exact isHexPrefix_false d '.' fp (by decide) (by decide)
    | cons e es =>
      have he : e.isDigit = true := hip e (by simp)
      have hx : e ≠ 'x' := by rintro rfl; exact absurd he (by decide)
      have hX : e ≠ 'X' := by rintro rfl; exact absurd he (by decide)
      exact isHexPrefix_false d e _ hx hX
  unfold isSpecial
  rw [hinf, hhex]
  rfl

/-- The value `stod` reads from digits, `.`, digits, with nothing after. -/
theorem stod_unsigned (ip fp : List Char) (hne : ip ≠ [])
    (hip : ∀ c ∈ ip, c.isDigit = true) (hfp : ∀ c ∈ fp, c.isDigit = true) :
    stod (ip ++ '.' :: fp)
      = .ok ((digitsValue (ip ++ fp) : ℚ) / (10 : ℚ) ^ fp.length) := by
  have hdot : Char.isDigit '.' = false := by decide
  have hspecial := isSpecial_digits_dot ip fp hne hip
  obtain ⟨d, ds, rfl⟩ := List.exists_cons_of_ne_nil hne
  have hd : d.isDigit = true := hip d (List.mem_cons_self _ _)
  have hsp : isSpace d = false := isDigit_not_space d hd
  have hm : d ≠ '-' := by rintro rfl; exact absurd hd (by decide)
  have hp : d ≠ '+' := by rintro rfl; exact absurd hd (by decide)
  have hdrop : ((d :: ds) ++ '.' :: fp).dropWhile isSpace = (d :: ds) ++ '.' :: fp := by
    simp [List.dropWhile, hsp]
  have hsign : (match (d :: ds) ++ '.' :: fp with
      | '-' :: r => (true, r)
      | '+' :: r => (false, r)
      | r => (false, r)) = (false, (d :: ds) ++ '.' :: fp) := by
    split
    · next r heq => exact absurd (List.cons.inj heq).1 hm
    · next r heq => exact absurd (List.cons.inj heq).1 hp
    · rfl
  unfold stod
  simp only [hdrop, hsign, hspecial, Bool.false_eq_true, if_false]
  rw [takeWhile_append_stop _ _ _ hip hdot, dropWhile_append_stop _ _ _ hip hdot]
  simp only [takeWhile_all fp hfp, dropWhile_all fp hfp]
  simp [exponent]

/-- The value `stod` reads from `-`, digits, `.`, digits, with nothing after. -/
theorem stod_negative (ip fp : List Char) (hne : ip ≠ [])
    (hip : ∀ c ∈ ip, c.isDigit = true) (hfp : ∀ c ∈ fp, c.isDigit = true) :
    stod ('-' :: (ip ++ '.' :: fp))
      = .ok (-((digitsValue (ip ++ fp) : ℚ) / (10 : ℚ) ^ fp.length)) := by
  have hdot : Char.isDigit '.' = false := by decide
  have hspecial := isSpecial_digits_dot ip fp hne hip
  have hdrop : ('-' :: (ip ++ '.' :: fp)).dropWhile isSpace = '-' :: (ip ++ '.' :: fp) := by
    have : isSpace '-' = false := by decide
    simp [List.dropWhile, this]
  unfold stod
  simp only [hdrop, hspecial, Bool.false_eq_true, if_false]
  rw [takeWhile_append_stop _ _ _ hip hdot, dropWhile_append_stop _ _ _ hip hdot]
  simp only [takeWhile_all fp hfp, dropWhile_all fp hfp]
  have hie : ip.isEmpty = false := by
    cases ip with
    | nil => exact absurd rfl hne
    | cons a as => rfl
  simp [exponent, hie]

theorem digitsValue_fixed4_digits (m : Nat) :
    digitsValue (Nat.toDigits 10 (m / 10000) ++ frac4 (m % 10000)) = m := by
  rw [digitsValue_append, digitsValue_toDigits, frac4_length,
    digitsValue_frac4 _ (Nat.mod_lt _ (by decide))]
  have := Nat.div_add_mod m 10000
  omega

/-- Reading a written field back gives the value rounded to four decimals. -/
theorem stod_fixed4 (v : ℚ) : stod (fixed4 v) = .ok (round4 v) := by
  have hne := toDigits_ne_nil (scaled4 v / 10000)
  have hip := toDigits_isDigit (scaled4 v / 10000)
  have hfp := frac4_isDigit (scaled4 v % 10000)
  by_cases hv : v < 0
  · have h := stod_negative _ _ hne hip hfp
    rw [digitsValue_fixed4_digits, frac4_length] at h
    simp only [fixed4, round4, if_pos hv, List.append_assoc, List.singleton_append,
      List.cons_append, List.nil_append]
    rw [h]; norm_num
  · have h := stod_unsigned _ _ hne hip hfp
    rw [digitsValue_fixed4_digits, frac4_length] at h
    simp only [fixed4, round4, if_neg hv, List.append_assoc, List.singleton_append,
      List.cons_append, List.nil_append]
    rw [h]; norm_num

/-- Rounding to four decimals moves a value by at most half of `10⁻⁴`. -/
theorem round4_error (v : ℚ) : |round4 v - v| ≤ 1 / 20000 := by
  have herr := roundHalfEven_error (|v| * 10000)
  rw [← scaled4_cast] at herr
  rw [abs_le] at herr ⊢
  obtain ⟨h1, h2⟩ := herr
  by_cases hv : v < 0
  · have ha : |v| = -v := abs_of_neg hv
    rw [ha] at h1 h2
    simp only [round4, if_pos hv]
    constructor <;> linarith
  · have ha : |v| = v := abs_of_nonneg (not_lt.mp hv)
    rw [ha] at h1 h2
    simp only [round4, if_neg hv]
    constructor <;> linarith

theorem fixed4_no_newline (v : ℚ) : '\n' ∉ fixed4 v := by
  intro h
  rcases fixed4_chars v _ h with h | h | h <;> exact absurd h (by decide)

theorem fixed4_no_comma (v : ℚ) : ',' ∉ fixed4 v := by
  intro h
  rcases fixed4_chars v _ h with h | h | h <;> exact absurd h (by decide)

/-- The loop body on a written line reads both fields back. -/
theorem parseRow_formatted (p : ℚ × ℚ) (word : List Char) :
    parseRow (fixed4 p.1 ++ ',' :: fixed4 p.2) word
      = .ok (round4 p.1, round4 p.2, fixed4 p.2) := by
  have g1 := getline_delim (fixed4 p.1) (fixed4 p.2) word ',' (fixed4_no_comma _)
  have g2 := getline_eof (fixed4 p.2) (fixed4 p.1) ',' (fixed4_no_comma _)
  unfold parseRow
  simp only [g1, stod_fixed4, g2]

/-- One pass of the loader loop over a written line. -/
theorem readRows_formatLine (fuel : Nat) (p : ℚ × ℚ) (rest line word : List Char)
    (xa ya : List ℚ) :
    readRows (fuel + 1) ⟨formatLine p ++ rest, false, false⟩ line word xa ya
      = readRows fuel ⟨rest, false, false⟩ (fixed4 p.1 ++ ',' :: fixed4 p.2) (fixed4 p.2)
          (xa ++ [round4 p.1]) (ya ++ [round4 p.2]) := by
  have hnl : '\n' ∉ fixed4 p.1 ++ ',' :: fixed4 p.2 := by
    intro h
    rcases List.mem_append.mp h with h | h
    · exact fixed4_no_newline _ h
    · rcases List.mem_cons.mp h with h | h
      · exact absurd h (by decide)
      · exact fixed4_no_newline _ h
  have hbuf : formatLine p ++ rest = (fixed4 p.1 ++ ',' :: fixed4 p.2) ++ '\n' :: rest := by
    simp [formatLine]
  have g0 := getline_delim (fixed4 p.1 ++ ',' :: fixed4 p.2) rest line '\n' hnl
  rw [readRows, hbuf, g0]
  simp only [Bool.false_eq_true, if_false, parseRow_formatted]

/-- The loader loop over the written lines of a list of samples. -/
theorem readRows_generated (ps : List (ℚ × ℚ)) (fuel : Nat) (line word : List Char)
    (xa ya : List ℚ) (hf : ps.length < fuel) :
    readRows fuel ⟨(ps.map formatLine).flatten, false, false⟩ line word xa ya
      = .ok (xa ++ ps.map (fun p => round4 p.1), ya ++ ps.map (fun p => round4 p.2)) := by
  induction ps generalizing fuel line word xa ya with
  | nil =>
    obtain ⟨f, rfl⟩ : ∃ f, fuel = f + 1 := ⟨fuel - 1, by simp at hf; omega⟩
    have g := getline_eof [] line '\n' (by simp)
    simp only [List.map_nil, List.flatten_nil, List.append_nil]
    rw [readRows, g]
    simp
  | cons p ps ih =>
    obtain ⟨f, rfl⟩ : ∃ f, fuel = f + 1 := ⟨fuel - 1, by simp at hf; omega⟩
    have hf' : ps.length < f := by simpa using hf
    simp only [List.map_cons, List.flatten_cons]
    rw [readRows_formatLine, ih f _ _ _ _ hf']
    simp

theorem flatten_formatLine_length (ps : List (ℚ × ℚ)) :
    ps.length ≤ ((ps.map formatLine).flatten).length := by
  induction ps with
  | nil => simp
  | cons p ps ih =>
    simp only [List.map_cons, List.flatten_cons, List.length_append, List.length_cons]
    have : 1 ≤ (formatLine p).length := by
      simp only [formatLine, List.length_append, List.length_cons, List.length_nil]
      omega
    omega

/-- The loader applied to the written text returns the generated samples, each
field rounded to four decimals, in the order written. -/
theorem loadData_generated (k : ℚ) (n : Int) (noise : Nat → ℚ) :
    loadData (generate_data_to_file k n noise)
      = .ok ((generateSamples k n noise).map (fun p => round4 p.1),
             (generateSamples k n noise).map (fun p => round4 p.2)) := by
  rw [generate_eq_join]
  have hh : header = "displacement_m,force_N".toList ++ '\n' ::  [] := by decide
  have g := getline_delim "displacement_m,force_N".toList
    (((generateSamples k n noise).map formatLine).flatten) [] '\n' (by decide)
  unfold loadData
  simp only
  rw [hh, List.append_assoc, List.cons_append, List.nil_append, g]
  rw [readRows_generated]
  · simp
  · have := flatten_formatLine_length (generateSamples k n noise)
    simp only [List.length_append, List.length_cons]
    omega

/-- C9.  Round trip: for every dataset the generator writes, reading the written
text back with the loader of `main` succeeds and yields the same number of
samples in the same order, each reloaded `x` and `y` within `10⁻⁴` of the
generated value. -/
theorem roundtrip_within_tolerance (k : ℚ) (n : Int) (noise : Nat → ℚ) :
    ∃ xs ys : List ℚ,
      loadData (generate_data_to_file k n noise) = .ok (xs, ys) ∧
      xs.length = (generateSamples k n noise).length ∧
      ys.length = (generateSamples k n noise).length ∧
      List.Forall₂ (fun a p => |a - p.1| ≤ 1 / 10000) xs (generateSamples k n noise) ∧
      List.Forall₂ (fun b p => |b - p.2| ≤ 1 / 10000) ys (generateSamples k n noise) := by
  refine ⟨_, _, loadData_generated k n noise, by simp, by simp, ?_, ?_⟩
  · rw [List.forall₂_map_left_iff]
    apply List.forall₂_same.mpr
    intro p _
    exact le_trans (round4_error p.1) (by norm_num)
  · rw [List.forall₂_map_left_iff]
    apply List.forall₂_same.mpr
    intro p _
    exact le_trans (round4_error p.2) (by norm_num)

/-! ## Rows the loader rejects or accepts -/

/-- On a good stream `getline` overwrites the string: its previous content does
not matter. -/
theorem getline_good_str (s : IStream) (str str' : List Char) (delim : Char)
    (h : s.good = true) : getline s str delim = getline s str' delim := by
  simp [getline, h]

/-- The loop body does not depend on what `word` held before. -/
theorem parseRow_word (line word word' : List Char) :
    parseRow line word = parseRow line word' := by
  unfold parseRow
  simp only [getline_good_str ⟨line, false, false⟩ word word' ',' rfl]

/-- One pass of the loader loop over a line ended by a newline. -/
theorem readRows_line (fuel : Nat) (l rest line word : List Char) (xa ya : List ℚ)
    (hl : '\n' ∉ l) :
    readRows (fuel + 1) ⟨l ++ '\n' :: rest, false, false⟩ line word xa ya
      = match parseRow l word with
        | .error e => .error e
        | .ok (xv, yv, word1) =>
          readRows fuel ⟨rest, false, false⟩ l word1 (xa ++ [xv]) (ya ++ [yv]) := by
  rw [readRows, getline_delim l rest line '\n' hl]
  simp only [Bool.false_eq_true, if_false]

/-- One pass of the loader loop over a last line that no newline ends. -/
theorem readRows_last_line (fuel : Nat) (l line word : List Char) (xa ya : List ℚ)
    (hl : '\n' ∉ l) (hne : l ≠ []) :
    readRows (fuel + 1) ⟨l, false, false⟩ line word xa ya
      = match parseRow l word with
        | .error e => .error e
        | .ok (xv, yv, word1) =>
          readRows fuel ⟨[], true, false⟩ l word1 (xa ++ [xv]) (ya ++ [yv]) := by
  have he : l.isEmpty = false := by
    cases l with
    | nil => exact absurd rfl hne
    | cons a as => rfl
  rw [readRows, getline_eof l line '\n' hl]
  simp only [he, Bool.false_eq_true, if_false]

/-- The loader loop fails at the first row whose conversion raises
`std::invalid_argument`, the rows before it being accepted. -/
theorem readRows_rejects (rows : List (List Char)) (bad tail : List Char) (fuel : Nat)
    (line word : List Char) (xa ya : List ℚ)
    (hrows : ∀ l ∈ rows, '\n' ∉ l ∧ ∃ v, parseRow l [] = .ok v)
    (hb : '\n' ∉ bad) (hbad : parseRow bad [] = .error .invalid_argument)
    (htail : (∃ rest, tail = '\n' :: rest) ∨ (tail = [] ∧ bad ≠ []))
    (hf : rows.length < fuel) :
    readRows fuel
        ⟨(rows.map (fun l => l ++ ['\n'])).flatten ++ (bad ++ tail), false, false⟩
        line word xa ya
      = .error .invalid_argument := by
  induction rows generalizing fuel line word xa ya with
  | nil =>
    obtain ⟨f, rfl⟩ : ∃ f, fuel = f + 1 := ⟨fuel - 1, by simp at hf; omega⟩
    simp only [List.map_nil, List.flatten_nil, List.nil_append]
    rcases htail with ⟨rest, rfl⟩ | ⟨rfl, hne⟩
    · rw [readRows_line f bad rest line word xa ya hb, parseRow_word bad word [], hbad]
    · rw [List.append_nil, readRows_last_line f bad line word xa ya hb hne,
        parseRow_word bad word [], hbad]
  | cons l ls ih =>
    obtain ⟨f, rfl⟩ : ∃ f, fuel = f + 1 := ⟨fuel - 1, by simp at hf; omega⟩
    have hf' : ls.length < f := by simpa using hf
    obtain ⟨hl, v, hv⟩ := hrows l (List.mem_cons_self _ _)
    have hrest : ∀ l' ∈ ls, '\n' ∉ l' ∧ ∃ v, parseRow l' [] = .ok v :=
      fun l' h' => hrows l' (List.mem_cons_of_mem _ h')
    simp only [List.map_cons, List.flatten_cons, List.append_assoc, List.singleton_append,
      List.cons_append, List.nil_append]
    rw [readRows_line f l _ line word xa ya hl, parseRow_word l word [], hv]
    exact ih f _ _ _ _ hrest hf'

theorem flatten_lines_length (rows : List (List Char)) :
    rows.length ≤ ((rows.map (fun l => l ++ ['\n'])).flatten).length := by
  induction rows with
  | nil => simp
  | cons l ls ih =>
    simp only [List.map_cons, List.flatten_cons, List.length_append, List.length_cons,
      List.length_nil]
    omega

/-- With exact decimal conversion the loader fails with `std::invalid_argument`
whenever some data line, the data lines before it being accepted, is one on which
the conversion of the row raises it: `std::stod` finds no leading number in the
first field or in the second field.  The line may be followed by a newline and
more text, or end the file. -/
theorem loadData_rejects_bad_row (hdr : List Char) (rows : List (List Char))
    (bad tail : List Char) (hh : '\n' ∉ hdr)
    (hrows : ∀ l ∈ rows, '\n' ∉ l ∧ ∃ v, parseRow l [] = .ok v)
    (hb : '\n' ∉ bad) (hbad : parseRow bad [] = .error .invalid_argument)
    (htail : (∃ rest, tail = '\n' :: rest) ∨ (tail = [] ∧ bad ≠ [])) :
    loadData (hdr ++ '\n' :: ((rows.map (fun l => l ++ ['\n'])).flatten ++ (bad ++ tail)))
      = .error .invalid_argument := by
  unfold loadData
  simp only
  rw [getline_delim hdr _ [] '\n' hh]
  apply readRows_rejects rows bad tail _ _ _ _ _ hrows hb hbad htail
  have := flatten_lines_length rows
  simp only [List.length_append, List.length_cons]
  omega

theorem loadData_rejects_bad_row_witness :
    '\n' ∉ "h".toList ∧
    (∀ l ∈ ["1.5,2".toList], '\n' ∉ l ∧ ∃ v, parseRow l [] = .ok v) ∧
    '\n' ∉ "abc,1".toList ∧ parseRow "abc,1".toList [] = .error .invalid_argument ∧
    ((∃ rest, "\n3,4\n".toList = '\n' :: rest) ∨
      ("\n3,4\n".toList = [] ∧ "abc,1".toList ≠ [])) ∧
    loadData "h\n1.5,2\nabc,1\n3,4\n".toList = .error .invalid_argument := by
  have h1 : '\n' ∉ "h".toList := by decide
  have h2 : ∀ l ∈ ["1.5,2".toList], '\n' ∉ l ∧ ∃ v, parseRow l [] = .ok v := by
    intro l hl
    simp only [List.mem_singleton] at hl
    subst hl
    have g1 : getline ⟨"1.5,2".toList, false, false⟩ [] ','
        = (⟨"2".toList, false, false⟩, "1.5".toList) := by decide
    have g2 : getline ⟨"2".toList, false, false⟩ "1.5".toList ','
        = (⟨[], true, false⟩, "2".toList) := by decide
    have s1 : stod "1.5".toList = .ok (3 / 2) := by
      simp [stod, isSpace, isSpecial, isHexPrefix, isInfNan, List.dropWhile, List.takeWhile,
        digitsValue, exponent]
      norm_num
    have s2 : stod "2".toList = .ok 2 := by
      simp [stod, isSpace, isSpecial, isHexPrefix, isInfNan, List.dropWhile, List.takeWhile,
        digitsValue, exponent]
    refine ⟨by decide, (3 / 2, 2, "2".toList), ?_⟩
    unfold parseRow
    simp only [g1, s1, g2, s2]
  have h3 : '\n' ∉ "abc,1".toList := by decide
  have h4 : parseRow "abc,1".toList [] = .error .invalid_argument := by rfl
  have h5 : (∃ rest, "\n3,4\n".toList = '\n' :: rest) ∨
      ("\n3,4\n".toList = [] ∧ "abc,1".toList ≠ []) := Or.inl ⟨"3,4\n".toList, rfl⟩
  exact ⟨h1, h2, h3, h4, h5,
    loadData_rejects_bad_row "h".toList ["1.5,2".toList] "abc,1".toList "\n3,4\n".toList
      h1 h2 h3 h4 h5⟩

/-- At the end of the text the loader loop stops with what it has read. -/
theorem readRows_end (fuel : Nat) (line word : List Char) (xa ya : List ℚ) :
    readRows (fuel + 1) ⟨[], false, false⟩ line word xa ya = .ok (xa, ya) := by
  rw [readRows, getline_eof [] line '\n' (by simp)]
  simp

/-- The loader on a header line followed by one accepted row. -/
theorem loadData_single_row (hdr l : List Char) (v : ℚ × ℚ × List Char) (hh : '\n' ∉ hdr)
    (hl : '\n' ∉ l) (hv : parseRow l [] = .ok v) :
    loadData (hdr ++ '\n' :: (l ++ '\n' :: [])) = .ok ([v.1], [v.2.1]) := by
  unfold loadData
  simp only
  rw [getline_delim hdr _ [] '\n' hh]
  have hlen : (hdr ++ '\n' :: (l ++ '\n' :: [])).length + 1
      = ((hdr ++ l).length + 1) + 1 + 1 := by
    simp only [List.length_append, List.length_cons, List.length_nil]; omega
  rw [hlen, readRows_line _ l [] hdr [] [] [] hl, hv]
  simp only [List.nil_append]
  rw [readRows_end]

/-- With exact decimal conversion rows that are not two numeric fields are
accepted: a line with three fields gives the sample of its first two, a line with a single
field gives that number twice, and a field with text after a number gives the
number. -/
theorem loadData_accepts_malformed_rows :
    loadData "h\n1,2,3\n".toList = .ok ([1], [2]) ∧
    loadData "h\n3.5\n".toList = .ok ([7 / 2], [7 / 2]) ∧
    loadData "h\n1.5abc,2\n".toList = .ok ([3 / 2], [2]) := by
  have s1 : stod "1".toList = .ok 1 := by
    simp [stod, isSpace, isSpecial, isHexPrefix, isInfNan, List.dropWhile, List.takeWhile,
      digitsValue, exponent]
  have s2 : stod "2".toList = .ok 2 := by
    simp [stod, isSpace, isSpecial, isHexPrefix, isInfNan, List.dropWhile, List.takeWhile,
      digitsValue, exponent]
  have s3 : stod "3.5".toList = .ok (7 / 2) := by
    simp [stod, isSpace, isSpecial, isHexPrefix, isInfNan, List.dropWhile, List.takeWhile,
      digitsValue, exponent]
    norm_num
  have s4 : stod "1.5abc".toList = .ok (3 / 2) := by
    simp [stod, isSpace, isSpecial, isHexPrefix, isInfNan, List.dropWhile, List.takeWhile,
      digitsValue, exponent]
    norm_num
  have p1 : parseRow "1,2,3".toList [] = .ok (1, 2, "2".toList) := by
    have g1 : getline ⟨"1,2,3".toList, false, false⟩ [] ','
        = (⟨"2,3".toList, false, false⟩, "1".toList) := by decide
    have g2 : getline ⟨"2,3".toList, false, false⟩ "1".toList ','
        = (⟨"3".toList, false, false⟩, "2".toList) := by decide
    unfold parseRow
    simp only [g1, s1, g2, s2]
  have p2 : parseRow "3.5".toList [] = .ok (7 / 2, 7 / 2, "3.5".toList) := by
    have g1 : getline ⟨"3.5".toList, false, false⟩ [] ','
        = (⟨[], true, false⟩, "3.5".toList) := by decide
    have g2 : getline ⟨[], true, false⟩ "3.5".toList ','
        = (⟨[], true, true⟩, "3.5".toList) := by decide
    unfold parseRow
    simp only [g1, s3, g2]
  have p3 : parseRow "1.5abc,2".toList [] = .ok (3 / 2, 2, "2".toList) := by
    have g1 : getline ⟨"1.5abc,2".toList, false, false⟩ [] ','
        = (⟨"2".toList, false, false⟩, "1.5abc".toList) := by decide
    have g2 : getline ⟨"2".toList, false, false⟩ "1.5abc".toList ','
        = (⟨[], true, false⟩, "2".toList) := by decide
    unfold parseRow
    simp only [g1, s4, g2, s2]
  exact ⟨loadData_single_row "h".toList "1,2,3".toList _ (by decide) (by decide) p1,
    loadData_single_row "h".toList "3.5".toList _ (by decide) (by decide) p2,
    loadData_single_row "h".toList "1.5abc,2".toList _ (by decide) (by decide) p3⟩

/-! ## The loader loop always returns -/

/-- A call of `getline` that does not set `failbit` consumes at least one
character. -/
theorem getline_buf_lt (s : IStream) (str : List Char) (delim : Char)
    (h : (getline s str delim).1.failbit = false) :
    (getline s str delim).1.buf.length < s.buf.length := by
  unfold getline at h ⊢
  by_cases hg : s.good = true
  · simp only [hg, if_true] at h ⊢
    have hspan := List.span_eq_take_drop (fun c => c != delim) s.buf
    have hlen : s.buf.length
        = (s.buf.takeWhile (fun c => c != delim)).length
          + (s.buf.dropWhile (fun c => c != delim)).length := by
      conv_lhs => rw [← List.takeWhile_append_dropWhile (fun c => c != delim) s.buf]
      rw [List.length_append]
    rw [hspan] at h ⊢
    cases hd : s.buf.dropWhile (fun c => c != delim) with
    | nil =>
      rw [hd] at h hlen
      simp only [List.isEmpty_eq_false_iff_exists_mem] at h
      obtain ⟨a, ha⟩ := h
      have : 0 < (s.buf.takeWhile (fun c => c != delim)).length := List.length_pos_of_mem ha
      simp only [List.length_nil]
      omega
    | cons c rest =>
      rw [hd] at hlen
      simp only [List.length_cons] at hlen ⊢
      omega
  · simp only [hg] at h
    simp at h

theorem stod_ne_out_of_fuel (s : List Char) : stod s ≠ .error .out_of_fuel := by
  unfold stod
  simp only
  split_ifs <;> simp

theorem parseRow_ne_out_of_fuel (line word : List Char) :
    parseRow line word ≠ .error .out_of_fuel := by
  unfold parseRow
  simp only
  split
  · next e he =>
    intro h
    have : e = LoadError.out_of_fuel := by simpa using h
    rw [this] at he
    exact stod_ne_out_of_fuel _ he
  · split
    · next e he =>
      intro h
      have : e = LoadError.out_of_fuel := by simpa using h
      rw [this] at he
      exact stod_ne_out_of_fuel _ he
    · simp

/-- With more fuel than characters left the loader loop ends by itself. -/
theorem readRows_ne_out_of_fuel (fuel : Nat) (file : IStream) (line word : List Char)
    (xa ya : List ℚ) (h : file.buf.length < fuel) :
    readRows fuel file line word xa ya ≠ .error .out_of_fuel := by
  induction fuel generalizing file line word xa ya with
  | zero => omega
  | succ f ih =>
    rw [readRows]
    by_cases hfail : (getline file line '\n').1.failbit = true
    · simp [hfail]
    · have hfail' : (getline file line '\n').1.failbit = false := by simpa using hfail
      have hlt := getline_buf_lt file line '\n' hfail'
      simp only [hfail', Bool.false_eq_true, if_false]
      split
      · next e he =>
        intro h'
        have : e = LoadError.out_of_fuel := by simpa using h'
        rw [this] at he
        exact parseRow_ne_out_of_fuel _ _ he
      · exact ih _ _ _ _ _ (by omega)

/-- The loader returns on every text: the fuel `main` is given always suffices. -/
theorem loadData_ne_out_of_fuel (text : List Char) : loadData text ≠ .error .out_of_fuel := by
  unfold loadData
  simp only
  apply readRows_ne_out_of_fuel
  by_cases hfail : (getline ⟨text, false, false⟩ [] '\n').1.failbit = true
  · have hbuf : (getline ⟨text, false, false⟩ [] '\n').1.buf.length ≤ text.length := by
      unfold getline
      simp only [IStream.good, Bool.not_false, Bool.and_self, if_true]
      rw [List.span_eq_take_drop]
      have hlen : text.length
          = (text.takeWhile (fun c => c != '\n')).length
            + (text.dropWhile (fun c => c != '\n')).length := by
        conv_lhs => rw [← List.takeWhile_append_dropWhile (fun c => c != '\n') text]
        rw [List.length_append]
      cases hd : text.dropWhile (fun c => c != '\n') with
      | nil => simp
      | cons c rest =>
        rw [hd] at hlen
        simp only [List.length_cons] at hlen ⊢
        omega
    omega
  · have hfail' : (getline ⟨text, false, false⟩ [] '\n').1.failbit = false := by
      simpa using hfail
    have := getline_buf_lt ⟨text, false, false⟩ [] '\n' hfail'
    simp only at this
    omega

/-! ## The header line is not looked at -/

/-- On a stream that is not good the loader loop stops at once. -/
theorem readRows_not_good (fuel : Nat) (file : IStream) (line word : List Char)
    (xa ya : List ℚ) (h : file.good = false) :
    readRows (fuel + 1) file line word xa ya = .ok (xa, ya) := by
  rw [readRows, getline_not_good file line '\n' h]
  simp

/-- The result of the loader loop depends neither on the fuel, once it exceeds the
number of characters left, nor on what `line` and `word` held before. -/
theorem readRows_fuel_line_word (fuel fuel' : Nat) (file : IStream)
    (line word line' word' : List Char) (xa ya : List ℚ)
    (h : file.buf.length < fuel) (h' : file.buf.length < fuel') :
    readRows fuel file line word xa ya = readRows fuel' file line' word' xa ya := by
  induction fuel generalizing fuel' file line word line' word' xa ya with
  | zero => omega
  | succ f ih =>
    obtain ⟨f', rfl⟩ : ∃ f', fuel' = f' + 1 := ⟨fuel' - 1, by omega⟩
    by_cases hg : file.good = true
    · rw [readRows, readRows, getline_good_str file line line' '\n' hg]
      by_cases hfail : (getline file line' '\n').1.failbit = true
      · simp [hfail]
      · have hfail' : (getline file line' '\n').1.failbit = false := by simpa using hfail
        have hlt := getline_buf_lt file line' '\n' hfail'
        simp only [hfail', Bool.false_eq_true, if_false]
        rw [parseRow_word _ word word']
        split
        · rfl
        · exact ih _ _ _ _ _ _ _ _ (by omega) (by omega)
    · have hg' : file.good = false := by simpa using hg
      rw [readRows_not_good f file line word xa ya hg',
        readRows_not_good f' file line' word' xa ya hg']

/-- C11.  The loader discards the first line without looking at it: two file
contents that differ only in their first line (the text before the first
newline, or the whole text when there is no newline) give the same result, be
it a dataset or a failure. -/
theorem loadData_ignores_first_line (h1 h2 tail : List Char) (hh1 : '\n' ∉ h1)
    (hh2 : '\n' ∉ h2) (ht : tail = [] ∨ ∃ rest, tail = '\n' :: rest) :
    loadData (h1 ++ tail) = loadData (h2 ++ tail) := by
  rcases ht with rfl | ⟨rest, rfl⟩
  · unfold loadData
    simp only [List.append_nil]
    rw [getline_eof h1 [] '\n' hh1, getline_eof h2 [] '\n' hh2,
      readRows_not_good h1.length ⟨[], true, h1.isEmpty⟩ h1 [] [] [] rfl,
      readRows_not_good h2.length ⟨[], true, h2.isEmpty⟩ h2 [] [] [] rfl]
  · unfold loadData
    simp only
    rw [getline_delim h1 rest [] '\n' hh1, getline_delim h2 rest [] '\n' hh2]
    apply readRows_fuel_line_word
    · simp only [List.length_append, List.length_cons]; omega
    · simp only [List.length_append, List.length_cons]; omega

theorem loadData_ignores_first_line_witness :
    '\n' ∉ "displacement_m,force_N".toList ∧ '\n' ∉ "x;y 12".toList ∧
    ("\n1.5,2\n".toList = [] ∨ ∃ rest, "\n1.5,2\n".toList = '\n' :: rest) ∧
    loadData ("displacement_m,force_N".toList ++ "\n1.5,2\n".toList)
      = loadData ("x;y 12".toList ++ "\n1.5,2\n".toList) :=
  have h1 : '\n' ∉ "displacement_m,force_N".toList := by decide
  have h2 : '\n' ∉ "x;y 12".toList := by decide
  have h3 : "\n1.5,2\n".toList = [] ∨ ∃ rest, "\n1.5,2\n".toList = '\n' :: rest :=
    Or.inr ⟨"1.5,2\n".toList, rfl⟩
  ⟨h1, h2, h3, loadData_ignores_first_line _ _ _ h1 h2 h3⟩

/-! ## The generated samples -/

/-- C12.  For every `num_points ≥ 0`, `true_slope` and noise sequence the generator
produces exactly `num_points` samples, the `i`-th (counted from 1) being
`x_i = i * 0.025`, `y_i = true_slope * x_i + eps_i`; the `x` values are strictly
increasing in output order. -/
theorem generateSamples_values (k : ℚ) (n : Int) (noise : Nat → ℚ) (hn : 0 ≤ n) :
    ((generateSamples k n noise).length : Int) = n ∧
    (∀ i : Nat, 1 ≤ i → (i : Int) ≤ n →
      (generateSamples k n noise)[i - 1]?
        = some ((i : ℚ) * 0.025, k * ((i : ℚ) * 0.025) + noise i)) ∧
    ((generateSamples k n noise).map Prod.fst).Pairwise (fun a b => a < b) := by
  refine ⟨?_, ?_, ?_⟩
  · rw [generateSamples_length]
    exact Int.toNat_of_nonneg hn
  · intro i hi hin
    have hlt : i - 1 < n.toNat := by omega
    have hi' : i - 1 + 1 = i := by omega
    simp only [generateSamples, List.getElem?_map, List.getElem?_range hlt, Option.map_some',
      sample, hi']
  · simp only [generateSamples, List.map_map]
    rw [List.pairwise_map]
    apply List.Pairwise.imp _ (List.pairwise_lt_range _)
    intro a b hab
    simp only [Function.comp_apply, sample]
    have : (a : ℚ) < (b : ℚ) := by exact_mod_cast hab
    norm_num
    linarith

theorem generateSamples_values_witness :
    (0 : Int) ≤ 3 ∧
    ((generateSamples 200 3 (fun i => (i : ℚ) / 7)).length : Int) = 3 ∧
    (∀ i : Nat, 1 ≤ i → (i : Int) ≤ 3 →
      (generateSamples 200 3 (fun i => (i : ℚ) / 7))[i - 1]?
        = some ((i : ℚ) * 0.025, 200 * ((i : ℚ) * 0.025) + (fun i : Nat => (i : ℚ) / 7) i)) ∧
    ((generateSamples 200 3 (fun i => (i : ℚ) / 7)).map Prod.fst).Pairwise
      (fun a b => a < b) :=
  ⟨by decide, generateSamples_values 200 3 (fun i => (i : ℚ) / 7) (by decide)⟩

/-! ## Order of the samples -/

theorem sumProd_map (ps : List (ℚ × ℚ)) (f g : ℚ × ℚ → ℚ) :
    sumProd (ps.map f) (ps.map g) = (ps.map (fun p => f p * g p)).sum := by
  induction ps with
  | nil => simp [sumProd]
  | cons p ps ih =>
    simp only [sumProd, List.map_cons, List.zipWith_cons_cons, List.sum_cons] at ih ⊢
    rw [ih]

theorem ssRes_map (ps : List (ℚ × ℚ)) (c s : ℚ) :
    ssRes (ps.map Prod.fst) (ps.map Prod.snd) c s
      = (ps.map (fun p => (p.2 - (c + s * p.1)) ^ 2)).sum := by
  induction ps with
  | nil => simp [ssRes]
  | cons p ps ih =>
    simp only [ssRes, List.map_cons, List.zipWith_cons_cons, List.sum_cons] at ih ⊢
    rw [ih]

/-- The six quantities the fit is built from do not change when the samples are
permuted. -/
theorem perm_stats (ps qs : List (ℚ × ℚ)) (h : ps.Perm qs) :
    slopeNumerator (ps.map Prod.fst) (ps.map Prod.snd)
      = slopeNumerator (qs.map Prod.fst) (qs.map Prod.snd) ∧
    slopeDenominator (ps.map Prod.fst) = slopeDenominator (qs.map Prod.fst) ∧
    mean (ps.map Prod.fst) = mean (qs.map Prod.fst) ∧
    mean (ps.map Prod.snd) = mean (qs.map Prod.snd) ∧
    (∀ m, ssTot (ps.map Prod.snd) m = ssTot (qs.map Prod.snd) m) ∧
    (∀ c s, ssRes (ps.map Prod.fst) (ps.map Prod.snd) c s
      = ssRes (qs.map Prod.fst) (qs.map Prod.snd) c s) := by
  have hsum : ∀ f : ℚ × ℚ → ℚ, (ps.map f).sum = (qs.map f).sum :=
    fun f => (h.map f).sum_eq
  have hlen : ps.length = qs.length := h.length_eq
  refine ⟨?_, ?_, ?_, ?_, ?_, ?_⟩
  · rw [slopeNumerator_eq, slopeNumerator_eq, sumProd_map, sumProd_map]
    simp only [List.length_map, hlen, hsum]
  · rw [slopeDenominator_eq, slopeDenominator_eq, sumProd_map, sumProd_map]
    simp only [List.length_map, hlen, hsum]
  · simp only [mean, List.length_map, hlen, hsum]
  · simp only [mean, List.length_map, hlen, hsum]
  · intro m
    simp only [ssTot, List.map_map]
    exact hsum _
  · intro c s
    rw [ssRes_map, ssRes_map]
    exact hsum _

/-- C13.  Sample order is irrelevant to the fit: permuting the `(x, y)` pairs of a
dataset (both vectors together) leaves the slope, intercept and `r_squared`
returned by `linearRegression` unchanged, in exact arithmetic. -/
theorem linearRegression_perm (ps qs : List (ℚ × ℚ)) (h : ps.Perm qs) :
    linearRegression (ps.map Prod.fst) (ps.map Prod.snd)
      = linearRegression (qs.map Prod.fst) (qs.map Prod.snd) := by
  obtain ⟨hN, hD, hmx, hmy, hT, hR⟩ := perm_stats ps qs h
  have hlp : (ps.map Prod.fst).length = (ps.map Prod.snd).length := by simp
  have hlq : (qs.map Prod.fst).length = (qs.map Prod.snd).length := by simp
  by_cases hps : ps = []
  · subst hps
    have : qs = [] := h.nil_eq.symm
    subst this
    rfl
  · have hqs : qs ≠ [] := fun hq => hps (by subst hq; exact h.eq_nil)
    have hxp : ps.map Prod.fst ≠ [] := by simpa using hps
    have hxq : qs.map Prod.fst ≠ [] := by simpa using hqs
    by_cases hd : slopeDenominator (ps.map Prod.fst) = 0
    · rw [linearRegression_nonfinite _ _ hlp hxp hd,
        linearRegression_nonfinite _ _ hlq hxq (hD ▸ hd), hmy, hT]
    · rw [linearRegression_finite _ _ hlp hxp hd,
        linearRegression_finite _ _ hlq hxq (hD ▸ hd), hN, hD, hmx, hmy, hT, hR]

theorem linearRegression_perm_witness :
    ([((1 : ℚ), (2 : ℚ)), (2, 4), (3, 7)] : List (ℚ × ℚ)).Perm [(3, 7), (1, 2), (2, 4)] ∧
    linearRegression ([((1 : ℚ), (2 : ℚ)), (2, 4), (3, 7)].map Prod.fst)
        ([((1 : ℚ), (2 : ℚ)), (2, 4), (3, 7)].map Prod.snd)
      = linearRegression ([((3 : ℚ), (7 : ℚ)), (1, 2), (2, 4)].map Prod.fst)
        ([((3 : ℚ), (7 : ℚ)), (1, 2), (2, 4)].map Prod.snd) :=
  have hp : ([((1 : ℚ), (2 : ℚ)), (2, 4), (3, 7)] : List (ℚ × ℚ)).Perm
      [(3, 7), (1, 2), (2, 4)] :=
    @List.perm_append_comm (ℚ × ℚ) [((1 : ℚ), (2 : ℚ)), (2, 4)] [(3, 7)]
  ⟨hp, linearRegression_perm _ _ hp⟩

/-! ## The pipeline without data points -/

theorem generateSamples_zero (k : ℚ) (noise : Nat → ℚ) : generateSamples k 0 noise = [] := by
  simp [generateSamples]

/-- C14.  The pipeline tolerates `n = 0`: with `num_points = 0` the generator writes
the header line only, the loader applied to that text succeeds with an empty
dataset, and `linearRegression` on it returns `{0, 0, 0}`. -/
theorem pipeline_zero_points (k : ℚ) (noise : Nat → ℚ) :
    generate_data_to_file k 0 noise = "displacement_m,force_N\n".toList ∧
    loadData (generate_data_to_file k 0 noise) = .ok ([], []) ∧
    linearRegression [] [] = ⟨some 0, some 0, some 0⟩ := by
  refine ⟨?_, ?_, linearRegression_nil []⟩
  · simp [generate_data_to_file, generateSamples_zero, header]
  · rw [loadData_generated, generateSamples_zero]
    rfl

/-! ## Least squares -/

/-- For a line satisfying the two normal equations, the residual sum of any other
line exceeds its own by a sum of squares. -/
theorem ssRes_sub_of_normal (x y : List ℚ) (c s a b : ℚ) (h : x.length = y.length)
    (h1 : (x.length : ℚ) * c + s * x.sum = y.sum)
    (h2 : c * x.sum + s * sumProd x x = sumProd x y) :
    (x.length : ℚ) * (ssRes x y a b - ssRes x y c s)
      = ((x.length : ℚ) * (a - c) + (b - s) * x.sum) ^ 2
        + (b - s) ^ 2 * ((x.length : ℚ) * sumProd x x - x.sum * x.sum) := by
  rw [ssRes_expand x y a b h, ssRes_expand x y c s h, ← h1, ← h2]
  ring

/-- The fitted slope and intercept satisfy the normal equations. -/
theorem normal_equations (x y : List ℚ) (h : x.length = y.length) (hx : x ≠ [])
    (hd : slopeDenominator x ≠ 0) :
    (x.length : ℚ) * (mean y - slopeNumerator x y / slopeDenominator x * mean x)
        + slopeNumerator x y / slopeDenominator x * x.sum = y.sum ∧
    (mean y - slopeNumerator x y / slopeDenominator x * mean x) * x.sum
        + slopeNumerator x y / slopeDenominator x * sumProd x x = sumProd x y := by
  have hn : (x.length : ℚ) ≠ 0 := by
    have : x.length ≠ 0 := fun h0 => hx (List.length_eq_zero.mp h0)
    exact_mod_cast this
  have hny : (y.length : ℚ) = (x.length : ℚ) := by rw [h]
  have hN := slopeNumerator_eq x y
  have hD := slopeDenominator_eq x
  simp only [mean, hny]
  generalize slopeNumerator x y = N at hN ⊢
  generalize slopeDenominator x = D at hD hd ⊢
  generalize sumProd x y = Sxy at hN ⊢
  generalize sumProd x x = Sxx at hD ⊢
  generalize x.sum = Sx at hN hD ⊢
  generalize y.sum = Sy at hN ⊢
  generalize (x.length : ℚ) = n at hn hN hD ⊢
  have hSxy : Sxy = (N + Sx * Sy) / n := by field_simp; linarith
  have hSxx : Sxx = (D + Sx * Sx) / n := by field_simp; linarith
  constructor
  · field_simp
    ring
  · rw [hSxy, hSxx]
    field_simp
    ring

/-- C15 (amended).  In exact arithmetic the line `linearRegression` returns
minimizes the sum of squared residuals: on every dataset with at least two distinct `x` values the returned
slope and intercept are finite and leave a residual sum no larger than that of any
candidate intercept `a` and slope `b`. -/
theorem linearRegression_minimizes (x y : List ℚ) (h : x.length = y.length)
    (hx2 : ∃ u ∈ x, ∃ v ∈ x, u ≠ v) :
    ∃ s c : ℚ, (linearRegression x y).slope = some s ∧
      (linearRegression x y).intercept = some c ∧
      ∀ a b : ℚ, ssRes x y c s ≤ ssRes x y a b := by
  have hx : x ≠ [] := by
    obtain ⟨u, hu, _⟩ := hx2
    exact List.ne_nil_of_mem hu
  have hdpos := slopeDenominator_pos x hx2
  have hd : slopeDenominator x ≠ 0 := ne_of_gt hdpos
  have hnpos : (0 : ℚ) < (x.length : ℚ) := by
    have : 0 < x.length := List.length_pos.mpr hx
    exact_mod_cast this
  refine ⟨slopeNumerator x y / slopeDenominator x,
    mean y - slopeNumerator x y / slopeDenominator x * mean x, ?_, ?_, ?_⟩
  · rw [linearRegression_finite x y h hx hd]
  · rw [linearRegression_finite x y h hx hd]
  · intro a b
    obtain ⟨h1, h2⟩ := normal_equations x y h hx hd
    have hdiff := ssRes_sub_of_normal x y _ _ a b h h1 h2
    rw [← slopeDenominator_eq] at hdiff
    have hge : 0 ≤ (x.length : ℚ) * (ssRes x y a b
        - ssRes x y (mean y - slopeNumerator x y / slopeDenominator x * mean x)
            (slopeNumerator x y / slopeDenominator x)) := by
      rw [hdiff]
      exact add_nonneg (sq_nonneg _) (mul_nonneg (sq_nonneg _) (le_of_lt hdpos))
    have := nonneg_of_mul_nonneg_right hge hnpos
    linarith

theorem linearRegression_minimizes_witness :
    ([1, 2, 3, 4] : List ℚ).length = ([2, 4, 6, 9] : List ℚ).length ∧
    (∃ u ∈ ([1, 2, 3, 4] : List ℚ), ∃ v ∈ ([1, 2, 3, 4] : List ℚ), u ≠ v) ∧
    ∃ s c : ℚ, (linearRegression [1, 2, 3, 4] [2, 4, 6, 9]).slope = some s ∧
      (linearRegression [1, 2, 3, 4] [2, 4, 6, 9]).intercept = some c ∧
      ∀ a b : ℚ, ssRes [1, 2, 3, 4] [2, 4, 6, 9] c s ≤ ssRes [1, 2, 3, 4] [2, 4, 6, 9] a b :=
  have h2 : ∃ u ∈ ([1, 2, 3, 4] : List ℚ), ∃ v ∈ ([1, 2, 3, 4] : List ℚ), u ≠ v :=
    ⟨1, by simp, 2, by simp, by norm_num⟩
  ⟨rfl, h2, linearRegression_minimizes [1, 2, 3, 4] [2, 4, 6, 9] rfl h2⟩

/-! ## The slope denominator -/

theorem slopeDenominator_nonneg (x : List ℚ) (hx : x ≠ []) : 0 ≤ slopeDenominator x := by
  rw [slopeDenominator_eq_ssTot x hx]
  exact mul_nonneg (Nat.cast_nonneg _) (ssTot_nonneg _ _)

theorem slopeDenominator_const (x : List ℚ) (c : ℚ) (hx : x ≠ []) (hc : ∀ v ∈ x, v = c) :
    slopeDenominator x = 0 := by
  rw [slopeDenominator_eq_ssTot x hx, mean_const x c hx hc, ssTot_const x c hc, mul_zero]

/-- C16.  For every non-empty dataset in which all `x` values are identical, the
slope denominator `n * Sxx - Sx * Sx` computed by `linearRegression` is exactly
`0`, and no guard stands before the division: the slope and the intercept come
out non-finite. -/
theorem constant_x_zero_denominator (x y : List ℚ) (c : ℚ) (h : x.length = y.length)
    (hx : x ≠ []) (hc : ∀ v ∈ x, v = c) :
    slopeDenominator x = 0 ∧ (linearRegression x y).slope = none ∧
      (linearRegression x y).intercept = none := by
  have hd := slopeDenominator_const x c hx hc
  refine ⟨hd, ?_, ?_⟩
  · rw [linearRegression_nonfinite x y h hx hd]
  · rw [linearRegression_nonfinite x y h hx hd]

theorem constant_x_zero_denominator_witness :
    ([2, 2, 2] : List ℚ).length = ([1, 5, 3] : List ℚ).length ∧ ([2, 2, 2] : List ℚ) ≠ [] ∧
    (∀ v ∈ ([2, 2, 2] : List ℚ), v = 2) ∧
    slopeDenominator [2, 2, 2] = 0 ∧ (linearRegression [2, 2, 2] [1, 5, 3]).slope = none ∧
      (linearRegression [2, 2, 2] [1, 5, 3]).intercept = none :=
  ⟨rfl, by simp, by simp,
    constant_x_zero_denominator [2, 2, 2] [1, 5, 3] 2 rfl (by simp) (by simp)⟩

/-- C17 (amended).  In exact arithmetic, for every non-empty dataset the slope
denominator `n * Sxx - Sx * Sx` is non-negative, and it is zero only if all `x` values are identical; hence with at
least two distinct `x` values the slope is a quotient by a strictly positive
number. -/
theorem slopeDenominator_sign (x : List ℚ) (hx : x ≠ []) :
    0 ≤ slopeDenominator x ∧
    (slopeDenominator x = 0 → ∀ u ∈ x, ∀ v ∈ x, u = v) ∧
    ((∃ u ∈ x, ∃ v ∈ x, u ≠ v) → 0 < slopeDenominator x ∧
      ∀ y : List ℚ, x.length = y.length →
        (linearRegression x y).slope = some (slopeNumerator x y / slopeDenominator x)) := by
  refine ⟨slopeDenominator_nonneg x hx, ?_, ?_⟩
  · intro h0 u hu v hv
    by_contra hne
    have := slopeDenominator_pos x ⟨u, hu, v, hv, hne⟩
    rw [h0] at this
    exact lt_irrefl 0 this
  · intro h2
    have hpos := slopeDenominator_pos x h2
    refine ⟨hpos, ?_⟩
    intro y hlen
    rw [linearRegression_finite x y hlen hx (ne_of_gt hpos)]

theorem slopeDenominator_sign_witness :
    ([1, 2, 4] : List ℚ) ≠ [] ∧
    0 ≤ slopeDenominator [1, 2, 4] ∧
    (slopeDenominator [1, 2, 4] = 0 →
      ∀ u ∈ ([1, 2, 4] : List ℚ), ∀ v ∈ ([1, 2, 4] : List ℚ), u = v) ∧
    ((∃ u ∈ ([1, 2, 4] : List ℚ), ∃ v ∈ ([1, 2, 4] : List ℚ), u ≠ v) →
      0 < slopeDenominator [1, 2, 4] ∧
      ∀ y : List ℚ, ([1, 2, 4] : List ℚ).length = y.length →
        (linearRegression [1, 2, 4] y).slope
          = some (slopeNumerator [1, 2, 4] y / slopeDenominator [1, 2, 4])) :=
  ⟨by simp, slopeDenominator_sign [1, 2, 4] (by simp)⟩

/-! ## Upper bound of `r_squared` -/

theorem ssRes_zero_of_residuals (x y : List ℚ) (c s : ℚ)
    (hres : ∀ p ∈ List.zip x y, p.2 - (c + s * p.1) = 0) : ssRes x y c s = 0 := by
  unfold ssRes
  induction x generalizing y with
  | nil => simp
  | cons u us ih =>
    cases y with
    | nil => simp
    | cons v vs =>
      have h0 : v - (c + s * u) = 0 := hres (u, v) (by simp)
      have hrest : ∀ p ∈ List.zip us vs, p.2 - (c + s * p.1) = 0 :=
        fun p hp => hres p (by simp [hp])
      simp only [List.zipWith_cons_cons, List.sum_cons, h0, ih vs hrest]
      norm_num

/-- On a non-empty dataset a finite slope is the quotient of numerator and
denominator, the denominator not being zero, and the intercept follows. -/
theorem slope_some_iff (x y : List ℚ) (s c : ℚ) (h : x.length = y.length) (hx : x ≠ [])
    (hs : (linearRegression x y).slope = some s)
    (hc : (linearRegression x y).intercept = some c) :
    slopeDenominator x ≠ 0 ∧ s = slopeNumerator x y / slopeDenominator x ∧
      c = mean y - slopeNumerator x y / slopeDenominator x * mean x := by
  by_cases hd : slopeDenominator x = 0
  · rw [linearRegression_nonfinite x y h hx hd] at hs
    simp at hs
  · rw [linearRegression_finite x y h hx hd] at hs hc
    simp only [Option.some.injEq] at hs hc
    exact ⟨hd, hs.symm, hc.symm⟩

/-- C18 (as stated, refuted).  With identical `x` values and differing `y` values
the returned `r_squared` is not a number, hence not at most `1`; and on the empty
dataset, where `ss_tot` is `0` and no residual is non-zero, it is `0`, not `1`. -/
theorem r_squared_bound_fails :
    (¬ ∃ r : ℚ, (linearRegression [1, 1] [0, 1]).r_squared = some r ∧ r ≤ 1) ∧
    (ssTot [] (mean []) = 0 ∧
      (∀ p ∈ List.zip ([] : List ℚ) ([] : List ℚ), p.2 - (0 + 0 * p.1) = 0) ∧
      (linearRegression [] []).r_squared ≠ some 1) := by
  refine ⟨?_, ?_, ?_, ?_⟩
  · have hd : slopeDenominator [1, 1] = 0 := by
      norm_num [slopeDenominator, inner_product, accumulate]
    have ht : ssTot [0, 1] (mean [0, 1]) > 0 := by
      norm_num [ssTot, mean]
    rw [linearRegression_nonfinite [1, 1] [0, 1] rfl (by simp) hd]
    simp [ht]
  · simp [ssTot]
  · simp
  · rw [linearRegression_nil]
    simp

/-- C18 (amended).  For every dataset, whenever `linearRegression` returns a finite
`r_squared` it is at most `1` (in exact arithmetic), and with two distinct `x`
values it is finite; on a non-empty dataset `r_squared` is `1` when `ss_tot = 0`,
and when slope and intercept are finite and every residual
`y - (intercept + slope * x)` is zero. -/
theorem r_squared_le_one (x y : List ℚ) (h : x.length = y.length) :
    (∀ r : ℚ, (linearRegression x y).r_squared = some r → r ≤ 1) ∧
    ((∃ u ∈ x, ∃ v ∈ x, u ≠ v) → ∃ r : ℚ, (linearRegression x y).r_squared = some r ∧ r ≤ 1) ∧
    (x ≠ [] → ssTot y (mean y) = 0 → (linearRegression x y).r_squared = some 1) ∧
    (x ≠ [] → ∀ s c : ℚ, (linearRegression x y).slope = some s →
      (linearRegression x y).intercept = some c →
      (∀ p ∈ List.zip x y, p.2 - (c + s * p.1) = 0) →
      (linearRegression x y).r_squared = some 1) := by
  refine ⟨fun r hr => (r_squared_range x y r h hr).2, ?_, ?_, ?_⟩
  · intro h2
    have hx : x ≠ [] := by
      obtain ⟨u, hu, _⟩ := h2
      exact List.ne_nil_of_mem hu
    have hd : slopeDenominator x ≠ 0 := ne_of_gt (slopeDenominator_pos x h2)
    have hfin := linearRegression_finite x y h hx hd
    have hr : ∃ r : ℚ, (linearRegression x y).r_squared = some r := by
      rw [hfin]
      by_cases ht : ssTot y (mean y) > 0
      · exact ⟨_, if_pos ht⟩
      · exact ⟨_, if_neg ht⟩
    obtain ⟨r, hr⟩ := hr
    exact ⟨r, hr, (r_squared_range x y r h hr).2⟩
  · intro hx ht
    have hnot : ¬ ssTot y (mean y) > 0 := by rw [ht]; exact lt_irrefl 0
    by_cases hd : slopeDenominator x = 0
    · rw [linearRegression_nonfinite x y h hx hd]; simp [hnot]
    · rw [linearRegression_finite x y h hx hd]; simp [hnot]
  · intro hx s c hs hc hres
    obtain ⟨hd, rfl, rfl⟩ := slope_some_iff x y s c h hx hs hc
    have h0 := ssRes_zero_of_residuals x y _ _ hres
    rw [linearRegression_finite x y h hx hd, h0]
    simp

theorem r_squared_le_one_witness :
    ([1, 2, 3, 4] : List ℚ).length = ([2, 4, 6, 9] : List ℚ).length ∧
    ((∀ r : ℚ, (linearRegression [1, 2, 3, 4] [2, 4, 6, 9]).r_squared = some r → r ≤ 1) ∧
    ((∃ u ∈ ([1, 2, 3, 4] : List ℚ), ∃ v ∈ ([1, 2, 3, 4] : List ℚ), u ≠ v) →
      ∃ r : ℚ, (linearRegression [1, 2, 3, 4] [2, 4, 6, 9]).r_squared = some r ∧ r ≤ 1) ∧
    (([1, 2, 3, 4] : List ℚ) ≠ [] → ssTot [2, 4, 6, 9] (mean [2, 4, 6, 9]) = 0 →
      (linearRegression [1, 2, 3, 4] [2, 4, 6, 9]).r_squared = some 1) ∧
    (([1, 2, 3, 4] : List ℚ) ≠ [] → ∀ s c : ℚ,
      (linearRegression [1, 2, 3, 4] [2, 4, 6, 9]).slope = some s →
      (linearRegression [1, 2, 3, 4] [2, 4, 6, 9]).intercept = some c →
      (∀ p ∈ List.zip ([1, 2, 3, 4] : List ℚ) ([2, 4, 6, 9] : List ℚ),
        p.2 - (c + s * p.1) = 0) →
      (linearRegression [1, 2, 3, 4] [2, 4, 6, 9]).r_squared = some 1)) :=
  ⟨rfl, r_squared_le_one [1, 2, 3, 4] [2, 4, 6, 9] rfl⟩

/-! ## One sample per data line -/

theorem linesOf_append_newline (w rest : List Char) (hw : '\n' ∉ w) :
    linesOf (w ++ '\n' :: rest) = w :: linesOf rest := by
  induction w with
  | nil => simp [linesOf]
  | cons a as ih =>
    have ha : a ≠ '\n' := fun h => hw (by simp [h])
    have has : '\n' ∉ as := fun h => hw (List.mem_cons_of_mem _ h)
    simp only [List.cons_append, linesOf, if_neg ha, List.append_eq, ih has]

theorem linesOf_no_newline (w : List Char) (hw : '\n' ∉ w) (hne : w ≠ []) :
    linesOf w = [w] := by
  induction w with
  | nil => exact absurd rfl hne
  | cons a as ih =>
    have ha : a ≠ '\n' := fun h => hw (by simp [h])
    have has : '\n' ∉ as := fun h => hw (List.mem_cons_of_mem _ h)
    cases as with
    | nil => simp [linesOf, ha]
    | cons b bs =>
      simp only [linesOf, if_neg ha] at ih ⊢
      rw [ih has (by simp)]

/-- A text either holds no `d`, or splits at its first `d`. -/
theorem split_at_first (l : List Char) (d : Char) :
    d ∉ l ∨ ∃ w rest, l = w ++ d :: rest ∧ d ∉ w := by
  induction l with
  | nil => left; simp
  | cons a as ih =>
    by_cases ha : a = d
    · right; exact ⟨[], as, by simp [ha], by simp⟩
    · rcases ih with h | ⟨w, rest, hl, hw⟩
      · left
        intro hmem
        rcases List.mem_cons.mp hmem with h' | h'
        · exact ha h'.symm
        · exact h h'
      · right
        refine ⟨a :: w, rest, by simp [hl], ?_⟩
        intro hmem
        rcases List.mem_cons.mp hmem with h' | h'
        · exact ha h'.symm
        · exact hw h'

/-- When the loader loop succeeds it has added one `x` and one `y` for every line
of the text that was left. -/
theorem readRows_lengths (fuel : Nat) (file : IStream) (line word : List Char)
    (xa ya xs ys : List ℚ) (hf : file.buf.length < fuel)
    (hg : file.good = true ∨ file.buf = [])
    (hok : readRows fuel file line word xa ya = .ok (xs, ys)) :
    xs.length = xa.length + (linesOf file.buf).length ∧
    ys.length = ya.length + (linesOf file.buf).length := by
  induction fuel generalizing file line word xa ya with
  | zero => omega
  | succ f ih =>
    by_cases hgood : file.good = true
    · obtain ⟨buf, e, fl⟩ := file
      have he : e = false := by
        cases e
        · rfl
        · simp [IStream.good] at hgood
      have hfl : fl = false := by
        cases fl
        · rfl
        · simp [IStream.good] at hgood
      subst he; subst hfl
      simp only at hf
      rcases split_at_first buf '\n' with hno | ⟨w, rest, rfl, hw⟩
      · by_cases hne : buf = []
        · subst hne
          rw [readRows_end] at hok
          simp only [Except.ok.injEq, Prod.mk.injEq] at hok
          obtain ⟨rfl, rfl⟩ := hok
          simp [linesOf]
        · rw [readRows_last_line f buf line word xa ya hno hne] at hok
          rw [linesOf_no_newline buf hno hne]
          split at hok
          · simp at hok
          · next xv yv w1 _ =>
            have hpos : 0 < buf.length := List.length_pos.mpr hne
            have := ih ⟨[], true, false⟩ buf w1 (xa ++ [xv]) (ya ++ [yv])
              (by simp only [List.length_nil]; omega) (Or.inr rfl) hok
            simp only [linesOf, List.length_append, List.length_cons, List.length_nil] at this ⊢
            omega
      · rw [readRows_line f w rest line word xa ya hw] at hok
        rw [linesOf_append_newline w rest hw]
        split at hok
        · simp at hok
        · next xv yv w1 _ =>
          have hlen : rest.length < f := by
            simp only [List.length_append, List.length_cons] at hf
            omega
          have := ih ⟨rest, false, false⟩ w w1 (xa ++ [xv]) (ya ++ [yv]) hlen
            (Or.inl rfl) hok
          simp only [List.length_append, List.length_cons, List.length_nil] at this ⊢
          omega
    · have hgood' : file.good = false := by simpa using hgood
      have hbuf : file.buf = [] := by
        rcases hg with h | h
        · exact absurd h hgood
        · exact h
      rw [readRows_not_good f file line word xa ya hgood'] at hok
      simp only [Except.ok.injEq, Prod.mk.injEq] at hok
      obtain ⟨rfl, rfl⟩ := hok
      simp [hbuf, linesOf]

/-- C19.  Whenever the loader of `main` succeeds on a file, the `x` and `y` vectors
it builds have the same length, equal to the number of lines after the header, so
every index `i < n` that `linearRegression` reads from `y` (with `n` taken from `x`)
is in bounds. -/
theorem loadData_lengths (text : List Char) (xs ys : List ℚ)
    (hok : loadData text = .ok (xs, ys)) :
    xs.length = ys.length ∧ xs.length = (linesOf text).tail.length ∧
      ∀ i : Nat, i < xs.length → i < ys.length := by
  have key : xs.length = (linesOf text).tail.length ∧ ys.length = (linesOf text).tail.length := by
    unfold loadData at hok
    simp only at hok
    rcases split_at_first text '\n' with hno | ⟨w, rest, rfl, hw⟩
    · rw [getline_eof text [] '\n' hno,
        readRows_not_good text.length ⟨[], true, text.isEmpty⟩ text [] [] [] rfl] at hok
      simp only [Except.ok.injEq, Prod.mk.injEq] at hok
      obtain ⟨rfl, rfl⟩ := hok
      by_cases hne : text = []
      · subst hne; simp [linesOf]
      · rw [linesOf_no_newline text hno hne]; simp
    · rw [getline_delim w rest [] '\n' hw] at hok
      have := readRows_lengths _ ⟨rest, false, false⟩ w [] [] [] xs ys
        (by simp only [List.length_append, List.length_cons]; omega) (Or.inl rfl) hok
      rw [linesOf_append_newline w rest hw]
      simpa using this
  obtain ⟨h1, h2⟩ := key
  exact ⟨h1.trans h2.symm, h1, fun i hi => by omega⟩

/-- The row `1.5,2` is read as the sample `(3/2, 2)`. -/
theorem parseRow_sample_row : parseRow "1.5,2".toList [] = .ok (3 / 2, 2, "2".toList) := by
  have g1 : getline ⟨"1.5,2".toList, false, false⟩ [] ','
      = (⟨"2".toList, false, false⟩, "1.5".toList) := by decide
  have g2 : getline ⟨"2".toList, false, false⟩ "1.5".toList ','
      = (⟨[], true, false⟩, "2".toList) := by decide
  have s1 : stod "1.5".toList = .ok (3 / 2) := by
    simp [stod, isSpace, isSpecial, isHexPrefix, isInfNan, List.dropWhile, List.takeWhile,
      digitsValue, exponent]
    norm_num
  have s2 : stod "2".toList = .ok 2 := by
    simp [stod, isSpace, isSpecial, isHexPrefix, isInfNan, List.dropWhile, List.takeWhile,
      digitsValue, exponent]
  unfold parseRow
  simp only [g1, s1, g2, s2]

theorem loadData_lengths_witness :
    loadData "h\n1.5,2\n".toList = .ok ([3 / 2], [2]) ∧
    ([3 / 2] : List ℚ).length = ([2] : List ℚ).length ∧
    ([3 / 2] : List ℚ).length = (linesOf "h\n1.5,2\n".toList).tail.length ∧
    ∀ i : Nat, i < ([3 / 2] : List ℚ).length → i < ([2] : List ℚ).length :=
  have hok : loadData "h\n1.5,2\n".toList = .ok ([3 / 2], [2]) :=
    loadData_single_row "h".toList "1.5,2".toList _ (by decide) (by decide)
      parseRow_sample_row
  ⟨hok, loadData_lengths "h\n1.5,2\n".toList [3 / 2] [2] hok⟩

/-! ## Binary64 runs of `linearRegression` -/

set_option maxRecDepth 100000 in
/-- The binary64 run on `x = 1, 2, 3` with every `y` the double nearest `0.1`: the
computed mean is the next double above, `ss_tot` is positive and `r_squared` is
`0`. -/
theorem linearRegression64_tenth_three :
    linearRegression64 [F64.ofNat 1, F64.ofNat 2, F64.ofNat 3]
        [F64.ofDecimal 1 10, F64.ofDecimal 1 10, F64.ofDecimal 1 10]
      = ⟨F64.zero, F64.fin false 7205759403792795 (-56), F64.zero⟩ := by
  decide

set_option maxRecDepth 100000 in
/-- The binary64 run on `x = 1, …, 6` with every `y` the double nearest `0.1`. -/
theorem linearRegression64_tenth_six :
    linearRegression64
        [F64.ofNat 1, F64.ofNat 2, F64.ofNat 3, F64.ofNat 4, F64.ofNat 5, F64.ofNat 6]
        [F64.ofDecimal 1 10, F64.ofDecimal 1 10, F64.ofDecimal 1 10, F64.ofDecimal 1 10,
         F64.ofDecimal 1 10, F64.ofDecimal 1 10]
      = ⟨F64.fin false 5490102402889748 (-108), F64.fin false 7205759403792789 (-56),
         F64.fin true 4691249611844267 (-50)⟩ := by
  decide

set_option maxRecDepth 100000 in
/-- The binary64 run on `x = 155000000.5, 155000001.5, 155000002.5`, `y = 1, 2, 3`. -/
theorem linearRegression64_large_x :
    linearRegression64
        [F64.ofDecimal 1550000005 10, F64.ofDecimal 1550000015 10, F64.ofDecimal 1550000025 10]
        [F64.ofNat 1, F64.ofNat 2, F64.ofNat 3]
      = ⟨F64.fin true 6755399441055744 (-55), F64.fin false 7801406052368384 (-28),
         F64.fin true 7388718138654720 (-54)⟩ := by
  decide

set_option maxRecDepth 100000 in
/-- The binary64 slope denominators of three datasets with distinct or repeated `x`
values: `0` for `x = 10^8, 10^8 + 1`, `-32` for `x = 155000000.5, 155000001.5,
155000002.5`, and `-2^-50` for six times the double nearest `0.3`. -/
theorem slopeDenominator64_values :
    slopeDenominator64 [F64.ofNat 100000000, F64.ofNat 100000001] = F64.zero ∧
    slopeDenominator64
        [F64.ofDecimal 1550000005 10, F64.ofDecimal 1550000015 10, F64.ofDecimal 1550000025 10]
      = F64.fin true 4503599627370496 (-47) ∧
    slopeDenominator64 [F64.ofDecimal 3 10, F64.ofDecimal 3 10, F64.ofDecimal 3 10,
        F64.ofDecimal 3 10, F64.ofDecimal 3 10, F64.ofDecimal 3 10]
      = F64.fin true 4503599627370496 (-102) := by
  decide

set_option maxRecDepth 100000 in
/-- The binary64 run on `x = 10^8, 10^8 + 1`, `y = 1, 2`: the slope is a quotient by
zero. -/
theorem linearRegression64_close_x :
    linearRegression64 [F64.ofNat 100000000, F64.ofNat 100000001] [F64.ofNat 1, F64.ofNat 2]
      = ⟨F64.inf false, F64.inf true, F64.nan⟩ := by
  decide

/-- The slope denominator `linearRegression64` divides by is `slopeDenominator64`. -/
theorem linearRegression64_slope (x y : List F64) (hx : x ≠ []) :
    (linearRegression64 x y).slope
      = F64.div (F64.sub (F64.mul (F64.ofNat x.length) (inner_product64 x y F64.zero))
          (F64.mul (accumulate64 x F64.zero) (accumulate64 y F64.zero)))
        (slopeDenominator64 x) := by
  have hn : x.length ≠ 0 := fun h0 => hx (List.length_eq_zero.mp h0)
  simp only [linearRegression64, if_neg hn, slopeDenominator64]

set_option maxRecDepth 100000 in
/-- The doubles written `155000000.5`, `155000001.5`, `155000002.5`, `1`, `2`, `3`. -/
theorem large_x_doubles :
    [F64.ofDecimal 1550000005 10, F64.ofDecimal 1550000015 10, F64.ofDecimal 1550000025 10]
      = [F64.fin false 5200936976777216 (-25), F64.fin false 5200937010331648 (-25),
         F64.fin false 5200937043886080 (-25)] ∧
    [F64.ofNat 1, F64.ofNat 2, F64.ofNat 3]
      = [F64.fin false 4503599627370496 (-52), F64.fin false 4503599627370496 (-51),
         F64.fin false 6755399441055744 (-51)] := by
  decide

/-- The exact values of the doubles of the run on large `x`. -/
theorem large_x_values :
    F64.toRat (F64.fin true 6755399441055744 (-55)) = -3 / 16 ∧
    F64.toRat (F64.fin false 7801406052368384 (-28)) = 930000073 / 32 ∧
    [F64.ofDecimal 1550000005 10, F64.ofDecimal 1550000015 10,
        F64.ofDecimal 1550000025 10].map F64.toRat
      = [310000001 / 2, 310000003 / 2, 310000005 / 2] ∧
    [F64.ofNat 1, F64.ofNat 2, F64.ofNat 3].map F64.toRat = [1, 2, 3] := by
  rw [large_x_doubles.1, large_x_doubles.2]
  refine ⟨?_, ?_, ?_, ?_⟩ <;> norm_num [F64.toRat]

/-! ## Identical `y` values in binary64 -/

theorem F64_sub_self (c : F64) (hfin : c.isFinite = true) : F64.sub c c = F64.zero := by
  cases c with
  | fin s m e =>
    by_cases hm : m = 0
    · subst hm
      cases s <;> simp [F64.sub, F64.neg, F64.add, F64.zero]
    · simp only [F64.sub, F64.neg, F64.add, if_neg hm, min_self, F64.zero]
      have hsum : F64.scaledInt s m e e + F64.scaledInt (!s) m e e = 0 := by
        cases s <;> simp [F64.scaledInt]
      rw [if_pos hsum]
  | inf s => simp [F64.isFinite] at hfin
  | nan => simp [F64.isFinite] at hfin

theorem F64_mul_zero_zero : F64.mul F64.zero F64.zero = F64.zero := by
  simp [F64.mul, F64.zero, roundF64]

theorem F64_add_zero_zero : F64.add F64.zero F64.zero = F64.zero := by
  simp [F64.add, F64.zero]

/-- While every `y[i]` read equals the mean, `ss_tot` stays `+0`. -/
theorem ssTot64_zero (x y : List F64) (slope intercept c : F64) (hfin : c.isFinite = true)
    (l : List Nat) (hl : ∀ i ∈ l, y.getD i F64.zero = c) (a : F64) :
    (l.foldl (ssStep64 x y slope intercept c) (a, F64.zero)).2 = F64.zero := by
  induction l generalizing a with
  | nil => rfl
  | cons i is ih =>
    have hi : y.getD i F64.zero = c := hl i (List.mem_cons_self _ _)
    have hstep : ssStep64 x y slope intercept c (a, F64.zero) i
        = ((ssStep64 x y slope intercept c (a, F64.zero) i).1, F64.zero) := by
      simp only [ssStep64, ssUpdate64, hi, F64_sub_self c hfin, F64_mul_zero_zero,
        F64_add_zero_zero]
    rw [List.foldl_cons, hstep]
    exact ih (fun j hj => hl j (List.mem_cons_of_mem _ hj)) _

/-- In binary64, for every non-empty dataset in which every `y` value is the same
finite number and the mean the code computes, `sum_y / n`, is that number,
`linearRegression` returns `r_squared = 1.0` exactly, whatever the `x` values, the
slope and the intercept are. -/
theorem r_squared64_constant_y (x y : List F64) (c : F64) (h : x.length = y.length)
    (hx : x ≠ []) (hc : ∀ v ∈ y, v = c) (hfin : c.isFinite = true)
    (hmean : F64.div (accumulate64 y F64.zero) (F64.ofNat x.length) = c) :
    (linearRegression64 x y).r_squared = F64.one := by
  have hn : x.length ≠ 0 := fun h0 => hx (List.length_eq_zero.mp h0)
  have hread : ∀ i ∈ List.range x.length, y.getD i F64.zero = c := by
    intro i hi
    have hlt : i < y.length := by rw [← h]; exact List.mem_range.mp hi
    rw [List.getD_eq_getElem _ _ hlt]
    exact hc _ (List.getElem_mem hlt)
  have hlt0 : F64.lt F64.zero F64.zero = false := by decide
  simp only [linearRegression64, if_neg hn, hmean]
  rw [ssTot64_zero x y _ _ c hfin (List.range x.length) hread, hlt0]
  simp

set_option maxRecDepth 100000 in
theorem r_squared64_constant_y_witness :
    [F64.ofNat 1, F64.ofNat 2, F64.ofNat 3].length
      = [F64.ofNat 5, F64.ofNat 5, F64.ofNat 5].length ∧
    [F64.ofNat 1, F64.ofNat 2, F64.ofNat 3] ≠ [] ∧
    (∀ v ∈ [F64.ofNat 5, F64.ofNat 5, F64.ofNat 5], v = F64.ofNat 5) ∧
    (F64.ofNat 5).isFinite = true ∧
    F64.div (accumulate64 [F64.ofNat 5, F64.ofNat 5, F64.ofNat 5] F64.zero)
      (F64.ofNat [F64.ofNat 1, F64.ofNat 2, F64.ofNat 3].length) = F64.ofNat 5 ∧
    (linearRegression64 [F64.ofNat 1, F64.ofNat 2, F64.ofNat 3]
      [F64.ofNat 5, F64.ofNat 5, F64.ofNat 5]).r_squared = F64.one :=
  ⟨rfl, by simp, by simp, by decide, by decide,
    r_squared64_constant_y [F64.ofNat 1, F64.ofNat 2, F64.ofNat 3]
      [F64.ofNat 5, F64.ofNat 5, F64.ofNat 5] (F64.ofNat 5) rfl (by simp) (by simp)
      (by decide) (by decide)⟩

/-- C5 (amended).  For every non-empty dataset in which every `y` value is the
same, `linearRegression` returns `r_squared = 1.0` exactly, whatever the `x`
values, the slope and the intercept are (also when the `x` values are all
identical): in exact arithmetic always, and in binary64 whenever the common value
is finite and the mean the code computes, `sum_y / n`, is that value. -/
theorem constant_y_r_squared :
    (∀ (x y : List ℚ) (c : ℚ), x.length = y.length → x ≠ [] → (∀ v ∈ y, v = c) →
      (linearRegression x y).r_squared = some 1) ∧
    (∀ (x y : List F64) (c : F64), x.length = y.length → x ≠ [] → (∀ v ∈ y, v = c) →
      c.isFinite = true →
      F64.div (accumulate64 y F64.zero) (F64.ofNat x.length) = c →
      (linearRegression64 x y).r_squared = F64.one) :=
  ⟨fun x y c h hx hc => r_squared_constant_y x y c h hx hc,
    fun x y c h hx hc hfin hmean => r_squared64_constant_y x y c h hx hc hfin hmean⟩

set_option maxRecDepth 100000 in
theorem constant_y_r_squared_witness :
    ((linearRegression [1, 2, 3] [5, 5, 5]).r_squared = some 1 ∧
      (linearRegression [4, 4, 4] [5, 5, 5]).r_squared = some 1) ∧
    (F64.ofNat 5).isFinite = true ∧
    F64.div (accumulate64 [F64.ofNat 5, F64.ofNat 5, F64.ofNat 5] F64.zero)
      (F64.ofNat [F64.ofNat 1, F64.ofNat 2, F64.ofNat 3].length) = F64.ofNat 5 ∧
    (linearRegression64 [F64.ofNat 1, F64.ofNat 2, F64.ofNat 3]
      [F64.ofNat 5, F64.ofNat 5, F64.ofNat 5]).r_squared = F64.one ∧
    (linearRegression64 [F64.ofNat 4, F64.ofNat 4, F64.ofNat 4]
      [F64.ofNat 5, F64.ofNat 5, F64.ofNat 5]).r_squared = F64.one :=
  ⟨⟨constant_y_r_squared.1 [1, 2, 3] [5, 5, 5] 5 rfl (by simp) (by simp),
      constant_y_r_squared.1 [4, 4, 4] [5, 5, 5] 5 rfl (by simp) (by simp)⟩,
    by decide, by decide,
    constant_y_r_squared.2 [F64.ofNat 1, F64.ofNat 2, F64.ofNat 3]
      [F64.ofNat 5, F64.ofNat 5, F64.ofNat 5] (F64.ofNat 5) rfl (by simp) (by simp)
      (by decide) (by decide),
    constant_y_r_squared.2 [F64.ofNat 4, F64.ofNat 4, F64.ofNat 4]
      [F64.ofNat 5, F64.ofNat 5, F64.ofNat 5] (F64.ofNat 5) rfl (by simp) (by simp)
      (by decide) (by decide)⟩

/-- C5 (as stated, refuted).  In binary64, on `x = 1, 2, 3` with every `y` equal to
`0.1`, the mean `sum_y / n` is not `0.1`, `ss_tot` is positive and `linearRegression`
returns `r_squared = 0`, not `1`. -/
theorem rounded_mean_breaks_constant_y :
    [F64.ofNat 1, F64.ofNat 2, F64.ofNat 3].length
      = [F64.ofDecimal 1 10, F64.ofDecimal 1 10, F64.ofDecimal 1 10].length ∧
    (∀ v ∈ [F64.ofDecimal 1 10, F64.ofDecimal 1 10, F64.ofDecimal 1 10],
      v = F64.ofDecimal 1 10) ∧
    (linearRegression64 [F64.ofNat 1, F64.ofNat 2, F64.ofNat 3]
      [F64.ofDecimal 1 10, F64.ofDecimal 1 10, F64.ofDecimal 1 10]).r_squared = F64.zero ∧
    (linearRegression64 [F64.ofNat 1, F64.ofNat 2, F64.ofNat 3]
      [F64.ofDecimal 1 10, F64.ofDecimal 1 10, F64.ofDecimal 1 10]).r_squared ≠ F64.one := by
  rw [linearRegression64_tenth_three]
  exact ⟨rfl, by simp, rfl, by decide⟩

/-! ## Negative `r_squared`, residuals and denominator in binary64 -/

/-- C6.  `r_squared` is not clamped to `[0, 1]` and can come out negative: in
binary64 the six points `x = 1, …, 6` with every `y` equal to `0.1` give
`r_squared = -4691249611844267 * 2^-50` (about `-4.1667`); and already in exact
arithmetic the call with `x = (0, 1)`, `y = (0, 0, 2)` returns `r_squared = -1`. -/
theorem r_squared_negative :
    ([F64.ofNat 1, F64.ofNat 2, F64.ofNat 3, F64.ofNat 4, F64.ofNat 5, F64.ofNat 6].length
      = [F64.ofDecimal 1 10, F64.ofDecimal 1 10, F64.ofDecimal 1 10, F64.ofDecimal 1 10,
         F64.ofDecimal 1 10, F64.ofDecimal 1 10].length ∧
     (linearRegression64
        [F64.ofNat 1, F64.ofNat 2, F64.ofNat 3, F64.ofNat 4, F64.ofNat 5, F64.ofNat 6]
        [F64.ofDecimal 1 10, F64.ofDecimal 1 10, F64.ofDecimal 1 10, F64.ofDecimal 1 10,
         F64.ofDecimal 1 10, F64.ofDecimal 1 10]).r_squared
        = F64.fin true 4691249611844267 (-50) ∧
     F64.lt (F64.fin true 4691249611844267 (-50)) F64.zero = true) ∧
    ((linearRegression [0, 1] [0, 0, 2]).r_squared = some (-1) ∧ (-1 : ℚ) < 0) := by
  refine ⟨⟨rfl, ?_, by decide⟩, ?_, by norm_num⟩
  · rw [linearRegression64_tenth_six]
  · norm_num [linearRegression, accumulate, inner_product, ddiv, dsub, dmul, dadd, dpow2,
      lift2, ssStep, ssUpdate, List.range_succ]

/-- C15 (as stated, refuted).  In binary64, on `x = 155000000.5, 155000001.5,
155000002.5`, `y = 1, 2, 3` (points of the line `y = x - 154999999.5`),
`linearRegression` returns slope `-0.1875` and intercept `29062502.28125`, whose
sum of squared residuals `361/128` exceeds the sum `0` of the candidate
`a = -154999999.5`, `b = 1`. -/
theorem least_squares_fails_binary64 :
    (∃ u ∈ [F64.ofDecimal 1550000005 10, F64.ofDecimal 1550000015 10,
        F64.ofDecimal 1550000025 10],
      ∃ v ∈ [F64.ofDecimal 1550000005 10, F64.ofDecimal 1550000015 10,
        F64.ofDecimal 1550000025 10], u ≠ v) ∧
    (linearRegression64
        [F64.ofDecimal 1550000005 10, F64.ofDecimal 1550000015 10, F64.ofDecimal 1550000025 10]
        [F64.ofNat 1, F64.ofNat 2, F64.ofNat 3]).slope
      = F64.fin true 6755399441055744 (-55) ∧
    (linearRegression64
        [F64.ofDecimal 1550000005 10, F64.ofDecimal 1550000015 10, F64.ofDecimal 1550000025 10]
        [F64.ofNat 1, F64.ofNat 2, F64.ofNat 3]).intercept
      = F64.fin false 7801406052368384 (-28) ∧
    ssRes ([F64.ofDecimal 1550000005 10, F64.ofDecimal 1550000015 10,
          F64.ofDecimal 1550000025 10].map F64.toRat)
        ([F64.ofNat 1, F64.ofNat 2, F64.ofNat 3].map F64.toRat)
        (F64.toRat (F64.fin false 7801406052368384 (-28)))
        (F64.toRat (F64.fin true 6755399441055744 (-55))) = 361 / 128 ∧
    ssRes ([F64.ofDecimal 1550000005 10, F64.ofDecimal 1550000015 10,
          F64.ofDecimal 1550000025 10].map F64.toRat)
        ([F64.ofNat 1, F64.ofNat 2, F64.ofNat 3].map F64.toRat)
        (-309999999 / 2) 1 = 0 ∧
    ¬ ((361 : ℚ) / 128 ≤ 0) := by
  obtain ⟨hs, hi, hx, hy⟩ := large_x_values
  rw [linearRegression64_large_x, hx, hy, hs, hi]
  refine ⟨?_, rfl, rfl, ?_, ?_, by norm_num⟩
  · rw [large_x_doubles.1]
    exact ⟨_, List.mem_cons_self _ _, _, List.mem_cons_of_mem _ (List.mem_cons_self _ _),
      by decide⟩
  · norm_num [ssRes]
  · norm_num [ssRes]

/-- C17 (as stated, refuted).  In binary64 the slope denominator
`n * sum_x_sq - sum_x * sum_x` is `0` for the two distinct values `x = 10^8,
10^8 + 1`, where the slope becomes a quotient by zero (`inf`), and it is negative,
`-32`, for `x = 155000000.5, 155000001.5, 155000002.5`. -/
theorem denominator_sign_fails_binary64 :
    (F64.ofNat 100000000 ≠ F64.ofNat 100000001 ∧
     slopeDenominator64 [F64.ofNat 100000000, F64.ofNat 100000001] = F64.zero ∧
     (linearRegression64 [F64.ofNat 100000000, F64.ofNat 100000001]
        [F64.ofNat 1, F64.ofNat 2]).slope = F64.inf false) ∧
    (slopeDenominator64
        [F64.ofDecimal 1550000005 10, F64.ofDecimal 1550000015 10, F64.ofDecimal 1550000025 10]
      = F64.fin true 4503599627370496 (-47) ∧
     F64.toRat (F64.fin true 4503599627370496 (-47)) = -32 ∧
     F64.lt (F64.fin true 4503599627370496 (-47)) F64.zero = true) := by
  refine ⟨⟨by decide, slopeDenominator64_values.1, ?_⟩, slopeDenominator64_values.2.1, ?_,
    by decide⟩
  · rw [linearRegression64_close_x]
  · norm_num [F64.toRat]

/-! ## The written text in binary64 -/

theorem generate64_eq_flatten (k : F64) (n : Int) (noise : Nat → F64) :
    generate_data_to_file64 k n noise
      = header ++ ((generateSamples64 k n noise).map formatLine64).flatten := by
  unfold generate_data_to_file64
  generalize generateSamples64 k n noise = s
  generalize header = h
  induction s generalizing h with
  | nil => simp
  | cons p ps ih => simp [List.foldl_cons, ih, List.append_assoc]

theorem fixed4_64_isFixed4 (v : F64) (hv : v.isFinite = true) :
    isFixed4 (fixed4_64 v) = true := by
  cases v with
  | fin s m e =>
    have h := isFixed4_of_shape s (Nat.toDigits 10 (scaled4 ((m : ℚ) * (2 : ℚ) ^ e) / 10000))
      (frac4 (scaled4 ((m : ℚ) * (2 : ℚ) ^ e) % 10000)) (toDigits_ne_nil _)
      (toDigits_isDigit _) (frac4_length _) (frac4_isDigit _)
    simpa [fixed4_64] using h
  | inf s => simp [F64.isFinite] at hv
  | nan => simp [F64.isFinite] at hv

theorem fixed4_64_chars (v : F64) (hv : v.isFinite = true) :
    ∀ c ∈ fixed4_64 v, c = '-' ∨ c = '.' ∨ c.isDigit = true := by
  cases v with
  | fin s m e =>
    intro c hc
    simp only [fixed4_64, List.mem_append, List.mem_singleton] at hc
    rcases hc with ((hc | hc) | hc) | hc
    · left
      cases s
      · simp at hc
      · simpa using hc
    · exact Or.inr (Or.inr (toDigits_isDigit _ c hc))
    · exact Or.inr (Or.inl hc)
    · exact Or.inr (Or.inr (frac4_isDigit _ c hc))
  | inf s => simp [F64.isFinite] at hv
  | nan => simp [F64.isFinite] at hv

/-- C8 (amended).  For every `true_slope`, `num_points ≥ 0` and noise sequence for
which every written `x` and `y` is a finite double, the text written by
`generate_data_to_file` is the header line `displacement_m,force_N` followed by
exactly `num_points` lines, each of the form `x,y` ended by a newline, where both
fields are decimal numerals with exactly 4 digits after the `.` and hold no other
character than `-`, `.` and digits (no white space, no further comma). -/
theorem generated_text_format64 (k : F64) (n : Int) (noise : Nat → F64) (hn : 0 ≤ n)
    (hfin : ∀ p ∈ generateSamples64 k n noise, p.1.isFinite = true ∧ p.2.isFinite = true) :
    ∃ lines : List (List Char),
      generate_data_to_file64 k n noise = "displacement_m,force_N\n".toList ++ lines.flatten ∧
      (lines.length : Int) = n ∧
      ∀ l ∈ lines, ∃ fx fy : List Char, l = fx ++ [','] ++ fy ++ ['\n'] ∧
        isFixed4 fx = true ∧ isFixed4 fy = true ∧
        ∀ c ∈ fx ++ fy, c = '-' ∨ c = '.' ∨ c.isDigit = true := by
  refine ⟨(generateSamples64 k n noise).map formatLine64, generate64_eq_flatten k n noise,
    ?_, ?_⟩
  · simp only [List.length_map, generateSamples64, List.length_range]
    exact Int.toNat_of_nonneg hn
  · intro l hl
    obtain ⟨p, hp, rfl⟩ := List.mem_map.mp hl
    obtain ⟨h1, h2⟩ := hfin p hp
    refine ⟨fixed4_64 p.1, fixed4_64 p.2, rfl, fixed4_64_isFixed4 _ h1,
      fixed4_64_isFixed4 _ h2, ?_⟩
    intro c hc
    rcases List.mem_append.mp hc with h | h
    · exact fixed4_64_chars _ h1 c h
    · exact fixed4_64_chars _ h2 c h

set_option maxRecDepth 100000 in
theorem generated_text_format64_witness :
    (0 : Int) ≤ 5 ∧
    (∀ p ∈ generateSamples64 (F64.ofNat 200) 5 (fun _ => F64.zero),
      p.1.isFinite = true ∧ p.2.isFinite = true) ∧
    ∃ lines : List (List Char),
      generate_data_to_file64 (F64.ofNat 200) 5 (fun _ => F64.zero)
        = "displacement_m,force_N\n".toList ++ lines.flatten ∧
      (lines.length : Int) = 5 ∧
      ∀ l ∈ lines, ∃ fx fy : List Char, l = fx ++ [','] ++ fy ++ ['\n'] ∧
        isFixed4 fx = true ∧ isFixed4 fy = true ∧
        ∀ c ∈ fx ++ fy, c = '-' ∨ c = '.' ∨ c.isDigit = true :=
  have hfin : ∀ p ∈ generateSamples64 (F64.ofNat 200) 5 (fun _ => F64.zero),
      p.1.isFinite = true ∧ p.2.isFinite = true := by decide
  ⟨by decide, hfin,
    generated_text_format64 (F64.ofNat 200) 5 (fun _ => F64.zero) (by decide) hfin⟩

/-- A field that passes the format test ends with a decimal digit. -/
theorem isFixed4_last_digit (f : List Char) (h : isFixed4 f = true) :
    ∃ init d, f = init ++ [d] ∧ d.isDigit = true := by
  have key : ∀ body : List Char,
      ((!(body.takeWhile Char.isDigit).isEmpty) &&
        (match body.dropWhile Char.isDigit with
          | '.' :: fp => fp.length == 4 && fp.all Char.isDigit
          | _ => false)) = true →
      ∃ init d, body = init ++ [d] ∧ d.isDigit = true := by
    intro body hb
    rw [Bool.and_eq_true] at hb
    have hsplit := List.takeWhile_append_dropWhile Char.isDigit body
    obtain ⟨_, hb2⟩ := hb
    split at hb2
    · next fp hfp =>
      rw [Bool.and_eq_true] at hb2
      obtain ⟨hlen, hall⟩ := hb2
      have hlen' : fp.length = 4 := by simpa using hlen
      match fp, hlen', hall, hfp with
      | [a, b, c, d], _, hall, hfp =>
        refine ⟨body.takeWhile Char.isDigit ++ ['.', a, b, c], d, ?_, ?_⟩
        · calc body = body.takeWhile Char.isDigit ++ body.dropWhile Char.isDigit := hsplit.symm
            _ = body.takeWhile Char.isDigit ++ ['.', a, b, c] ++ [d] := by rw [hfp]; simp
        · simp only [List.all_cons, List.all_nil, Bool.and_true, Bool.and_eq_true] at hall
          exact hall.2.2.2
    · simp at hb2
  unfold isFixed4 at h
  simp only at h
  split at h
  · next r =>
    obtain ⟨init, d, hr, hd⟩ := key r h
    exact ⟨'-' :: init, d, by simp [hr], hd⟩
  · exact key f h

theorem generateSamples64_succ (k : F64) (n : Nat) (noise : Nat → F64) :
    generateSamples64 k ((n + 1 : Nat) : Int) noise
      = generateSamples64 k (n : Int) noise ++ [sample64 k noise (n + 1)] := by
  simp [generateSamples64, List.range_succ]

set_option maxRecDepth 100000 in
/-- The eightieth sample for `true_slope = 10^308` (as a double) without noise:
`x = 2.0` and `y = inf`. -/
theorem sample64_overflow :
    sample64 (F64.fin false 5010420900022432 971) (fun _ => F64.zero) 80
      = (F64.fin false 4503599627370496 (-51), F64.inf false) := by
  decide

theorem formatLine64_overflow :
    formatLine64 (F64.fin false 4503599627370496 (-51), F64.inf false)
      = "2.0000,inf\n".toList := by
  have hs : scaled4 (((4503599627370496 : Nat) : ℚ) * (2 : ℚ) ^ (-51 : Int)) = 20000 := by
    apply scaled4_of_eq
    norm_num
  simp only [formatLine64, fixed4_64, hs]
  decide

/-- C8 (as stated, refuted).  For the finite `true_slope = 10^308` (the double
`5010420900022432 * 2^971`), 80 points and no noise, the last `y` overflows to
`inf` and the last line written is `2.0000,inf`: the text is not the header
followed by 80 lines of two numerals with 4 decimals. -/
theorem generated_text_overflow :
    (F64.fin false 5010420900022432 971).isFinite = true ∧
    (∃ pre : List Char,
      generate_data_to_file64 (F64.fin false 5010420900022432 971) 80 (fun _ => F64.zero)
        = pre ++ "2.0000,inf\n".toList) ∧
    ¬ ∃ lines : List (List Char),
      generate_data_to_file64 (F64.fin false 5010420900022432 971) 80 (fun _ => F64.zero)
        = "displacement_m,force_N\n".toList ++ lines.flatten ∧
      (lines.length : Int) = 80 ∧
      ∀ l ∈ lines, ∃ fx fy : List Char, l = fx ++ [','] ++ fy ++ ['\n'] ∧
        isFixed4 fx = true ∧ isFixed4 fy = true := by
  have htext : generate_data_to_file64 (F64.fin false 5010420900022432 971) 80
      (fun _ => F64.zero)
      = (header ++ ((generateSamples64 (F64.fin false 5010420900022432 971) (79 : Nat)
          (fun _ => F64.zero)).map formatLine64).flatten ++ "2.0000,in".toList)
        ++ ['f', '\n'] := by
    rw [generate64_eq_flatten]
    have h80 : (80 : Int) = ((79 + 1 : Nat) : Int) := by norm_num
    rw [h80, generateSamples64_succ, List.map_append, List.flatten_append, List.map_singleton,
      sample64_overflow, formatLine64_overflow]
    simp
  refine ⟨rfl, ⟨header ++ ((generateSamples64 (F64.fin false 5010420900022432 971) (79 : Nat)
    (fun _ => F64.zero)).map formatLine64).flatten, by rw [htext]; simp⟩, ?_⟩
  rintro ⟨lines, heq, hlen, hlines⟩
  have hne : lines ≠ [] := by
    intro h0; rw [h0] at hlen; simp at hlen
  obtain ⟨fx, fy, hlast, _, hfy⟩ := hlines (lines.getLast hne) (List.getLast_mem hne)
  obtain ⟨init, d, hfyd, hd⟩ := isFixed4_last_digit fy hfy
  have hflat : lines.flatten = lines.dropLast.flatten ++ lines.getLast hne := by
    conv_lhs => rw [← List.dropLast_append_getLast hne]
    simp
  rw [htext, hflat, hlast, hfyd] at heq
  have heq' : (header ++ ((generateSamples64 (F64.fin false 5010420900022432 971) (79 : Nat)
          (fun _ => F64.zero)).map formatLine64).flatten ++ "2.0000,in".toList)
        ++ ['f', '\n']
      = ("displacement_m,force_N\n".toList ++ lines.dropLast.flatten ++ fx ++ [','] ++ init)
        ++ [d, '\n'] := by
    rw [heq]; simp
  have hd' := (List.append_inj' heq' rfl).2
  have hfd : 'f' = d := (List.cons.inj hd').1
  rw [← hfd] at hd
  exact absurd hd (by decide)

/-! ## What `std::stod` refuses -/

theorem stodResult_ne_invalid (neg : Bool) (num den : Nat) (ex : Int) :
    stodResult neg num den ex ≠ .error .invalid_argument := by
  unfold stodResult
  split
  · split <;> simp
  · simp

theorem stodResult_ne_out_of_fuel (neg : Bool) (num den : Nat) (ex : Int) :
    stodResult neg num den ex ≠ .error .out_of_fuel := by
  unfold stodResult
  split
  · split <;> simp
  · simp

/-- A text that begins like a number is converted or is out of range: `std::stod`
does not throw `std::invalid_argument` on it. -/
theorem stod64_of_number (str : List Char) (h : hasNumberPrefix str = true) :
    stod64 str ≠ .error .invalid_argument := by
  unfold hasNumberPrefix at h
  unfold stod64
  simp only
  generalize (splitSign (str.dropWhile isSpace)) = sg at h ⊢
  obtain ⟨neg, s2⟩ := sg
  simp only at h ⊢
  by_cases hinf : isInfPrefix s2 = true
  · simp [hinf]
  by_cases hnan : isNanPrefix s2 = true
  · simp [hinf, hnan]
  by_cases hhex : isHexPrefix s2 = true
  · simp only [hinf, hnan, hhex, if_true, Bool.false_eq_true, if_false]
    exact stodResult_ne_invalid _ _ _ _
  simp only [hinf, hnan, hhex, Bool.false_eq_true, if_false]
  have hparts : ((s2.takeWhile Char.isDigit).isEmpty
      && (fractionPart Char.isDigit (s2.dropWhile Char.isDigit)).1.isEmpty) = false := by
    match s2, h, hinf, hnan with
    | [], h, _, _ => simp at h
    | [c], h, _, _ =>
      have hc : c.isDigit = true := by simpa using h
      simp [List.takeWhile, hc]
    | c :: d :: r, h, hinf, hnan =>
      simp only [hinf, hnan, Bool.or_false, Bool.or_eq_true, Bool.and_eq_true,
        decide_eq_true_eq] at h
      rcases h with hc | ⟨hc, hd⟩
      · simp [List.takeWhile, hc]
      · subst hc
        have hdot : Char.isDigit '.' = false := by decide
        simp [List.takeWhile, List.dropWhile, hdot, fractionPart, hd]
  rw [hparts]
  simp only [Bool.false_eq_true, if_false]
  exact stodResult_ne_invalid _ _ _ _

theorem stod64_ne_out_of_fuel (str : List Char) : stod64 str ≠ .error .out_of_fuel := by
  unfold stod64
  simp only
  split_ifs <;> first | exact stodResult_ne_out_of_fuel _ _ _ _ | simp

/-! ## The loader loop in binary64 -/

theorem parseRow64_ne_out_of_fuel (line word : List Char) :
    parseRow64 line word ≠ .error .out_of_fuel := by
  unfold parseRow64
  simp only
  split
  · next e he =>
    intro h
    have : e = LoadError64.out_of_fuel := by simpa using h
    rw [this] at he
    exact stod64_ne_out_of_fuel _ he
  · split
    · next e he =>
      intro h
      have : e = LoadError64.out_of_fuel := by simpa using h
      rw [this] at he
      exact stod64_ne_out_of_fuel _ he
    · simp

/-- With more fuel than characters left the loader loop ends by itself. -/
theorem readRows64_ne_out_of_fuel (fuel : Nat) (file : IStream) (line word : List Char)
    (xa ya : List F64) (h : file.buf.length < fuel) :
    readRows64 fuel file line word xa ya ≠ .error .out_of_fuel := by
  induction fuel generalizing file line word xa ya with
  | zero => omega
  | succ f ih =>
    rw [readRows64]
    by_cases hfail : (getline file line '\n').1.failbit = true
    · simp [hfail]
    · have hfail' : (getline file line '\n').1.failbit = false := by simpa using hfail
      have hlt := getline_buf_lt file line '\n' hfail'
      simp only [hfail', Bool.false_eq_true, if_false]
      split
      · next e he =>
        intro h'
        have : e = LoadError64.out_of_fuel := by simpa using h'
        rw [this] at he
        exact parseRow64_ne_out_of_fuel _ _ he
      · exact ih _ _ _ _ _ (by omega)

/-- The first `getline` of the loader leaves fewer characters than the text has,
or as many. -/
theorem getline_header_buf_le (text : List Char) :
    (getline ⟨text, false, false⟩ [] '\n').1.buf.length ≤ text.length := by
  unfold getline
  simp only [IStream.good, Bool.not_false, Bool.and_self, if_true]
  rw [List.span_eq_take_drop]
  have hlen : text.length
      = (text.takeWhile (fun c => c != '\n')).length
        + (text.dropWhile (fun c => c != '\n')).length := by
    conv_lhs => rw [← List.takeWhile_append_dropWhile (fun c => c != '\n') text]
    rw [List.length_append]
  cases hd : text.dropWhile (fun c => c != '\n') with
  | nil => simp
  | cons c rest =>
    rw [hd] at hlen
    simp only [List.length_cons] at hlen ⊢
    omega

/-- The binary64 loader returns on every text: the fuel it is given always
suffices. -/
theorem loadData64_ne_out_of_fuel (text : List Char) :
    loadData64 text ≠ .error .out_of_fuel := by
  unfold loadData64
  simp only
  apply readRows64_ne_out_of_fuel
  have := getline_header_buf_le text
  omega

set_option maxRecDepth 100000 in
set_option exponentiation.threshold 4000 in
/-- A field that holds a number outside the range of `double` makes the loader fail
with `std::out_of_range`. -/
theorem loadData64_out_of_range :
    loadData64 "h\n1e400,1\n".toList = .error .out_of_range := by
  decide

/-! ## A written value in exact arithmetic and in binary64 -/

set_option maxRecDepth 100000 in
/-- The first sample for `true_slope = 0.25` without noise, in binary64: `x` is the
double nearest `0.025` and `y` a quarter of it. -/
theorem sample64_quarter :
    sample64 (F64.ofDecimal 25 100) (fun _ => F64.zero) 1
      = (F64.fin false 7205759403792794 (-58), F64.fin false 7205759403792794 (-60)) := by
  decide

/-- The line written for that sample: the double `y` lies above `0.00625` and is
written `0.0063`, where the exact product `0.00625` is written `0.0062`. -/
theorem formatLine_quarter :
    formatLine64 (F64.fin false 7205759403792794 (-58), F64.fin false 7205759403792794 (-60))
      = "0.0250,0.0063\n".toList ∧
    formatLine (sample (1 / 4) (fun _ => 0) 1) = "0.0250,0.0062\n".toList := by
  have hx : scaled4 (((7205759403792794 : Nat) : ℚ) * (2 : ℚ) ^ (-58 : Int)) = 250 := by
    norm_num [scaled4, roundHalfEven, abs_of_nonneg]
    rfl
  have hy : scaled4 (((7205759403792794 : Nat) : ℚ) * (2 : ℚ) ^ (-60 : Int)) = 63 := by
    norm_num [scaled4, roundHalfEven, abs_of_nonneg]
    rfl
  have h1 : scaled4 (((1 : Nat) : ℚ) * 0.025) = 250 := by
    apply scaled4_of_eq; norm_num [abs_of_nonneg]
  have h2 : scaled4 ((1 : ℚ) / 4 * (((1 : Nat) : ℚ) * 0.025) + 0) = 62 := by
    norm_num [scaled4, roundHalfEven, abs_of_nonneg]
    rfl
  have n1 : ¬ ((((1 : Nat) : ℚ) * 0.025) < 0) := by norm_num
  have n2 : ¬ ((1 : ℚ) / 4 * (((1 : Nat) : ℚ) * 0.025) + 0 < 0) := by norm_num
  constructor
  · simp only [formatLine64, fixed4_64, hx, hy]
    decide
  · simp only [formatLine, sample, fixed4, h1, h2, if_neg n1, if_neg n2]
    decide

end CombinedApp
